import Mathlib

/-!
Verification of the live markdown decoration engine of the hang.ai
repository.  The TypeScript sources are shallowly embedded: document text
is a list of characters, scanners and replacement routines are executable
Lean functions translated line by line from the two editor implementations
(the CodeMirror based one and the contentEditable based one).
-/

namespace HangAI

/-- Document text: an ordered sequence of characters. -/
abbrev Str := List Char

/-- Convert a Lean string literal to document text. -/
def str (s : String) : Str := s.data

/-- Character at index `i` equals `c` (false when out of range),
mirroring a JavaScript comparison `text[i] === c`. -/
def chAt (t : Str) (i : Nat) (c : Char) : Bool := t[i]? == some c

/-- Number of consecutive backslash characters immediately before index
`idx`, counted scanning backward.  Mirrors the loop
`let k = idx - 1, c = 0; while (k >= 0 && text[k] === backslash) c++, k--`
shared by `findMathRegions.isEscaped` (ContentEditableEditor) and
`scanMath.isEsc` (CMMarkdownEditor). -/
def bsRun (t : Str) : Nat → Nat
  | 0 => 0
  | k + 1 => if chAt t k '\\' then bsRun t k + 1 else 0

/-- `isEscaped`: a delimiter position is escaped when preceded by an odd
number of consecutive backslashes. -/
def isEscaped (t : Str) (idx : Nat) : Bool := bsRun t idx % 2 == 1

/-- Independent characterization of the backward backslash count: the
length of the maximal run of backslashes at the end of the prefix before
`idx`. -/
def bsRunSpec (t : Str) (idx : Nat) : Nat :=
  ((t.take idx).reverse.takeWhile (fun c => c == '\\')).length

theorem bsRun_eq_spec (t : Str) (idx : Nat) (hle : idx ≤ t.length) :
    bsRun t idx = bsRunSpec t idx := by
  induction idx with
  | zero => simp [bsRun, bsRunSpec]
  | succ k ih =>
    have hk : k < t.length := hle
    have htake : t.take (k + 1) = t.take k ++ (t[k]?).toList := List.take_succ
    obtain ⟨c, hgc⟩ : ∃ c, t[k]? = some c := by
      exact ⟨t[k], List.getElem?_eq_getElem hk⟩
    have ihk := ih (Nat.le_of_lt hk)
    unfold bsRun
    by_cases hc : c = '\\'
    · have hch : chAt t k '\\' = true := by simp [chAt, hgc, hc]
      simp only [hch, if_true, ihk, bsRunSpec, htake, hgc, hc]
      simp [List.takeWhile]
    · have hch : ¬ chAt t k '\\' = true := by simp [chAt, hgc, hc]
      simp only [hch, if_false, bsRunSpec, htake, hgc]
      simp [List.takeWhile, hc]

/-! ## findMathRegions (ContentEditableEditor.tsx, lines 192-250)

The scanner walks the text once.  At an unescaped dollar it branches on a
block opener (a second unescaped dollar) or an inline opener, searches
for the matching close, and either records a region and resumes after it,
or stops scanning entirely (the `// unmatched; stop searching` break).
The Lean translation uses explicit fuel; callers pass enough fuel for the
whole text, and all lemmas are proved for every fuel value. -/

/-- A math region as produced by `findMathRegions`:
`{ start, end, display }`. -/
structure MRegion where
  start : Nat
  stop : Nat
  display : Bool
deriving DecidableEq, Repr

/-- Search for the closing `$$` of a block region: the first `j ≥ i` with
`text[j] === dollar && !isEscaped(j) && j+1 < len && text[j+1] === dollar
&& !isEscaped(j+1)`; returns the index just after the closing pair. -/
def fmrCloseBlock (t : Str) : Nat → Nat → Option Nat
  | 0, _ => none
  | fuel + 1, i =>
    if i < t.length then
      if chAt t i '$' && !isEscaped t i && decide (i + 1 < t.length) &&
          chAt t (i+1) '$' && !isEscaped t (i+1) then
        some (i + 2)
      else fmrCloseBlock t fuel (i + 1)
    else none

/-- Search for the closing `$` of an inline region: the first `j ≥ i`
with `text[j] === dollar && !isEscaped(j)`; returns the index just after
it. -/
def fmrCloseInline (t : Str) : Nat → Nat → Option Nat
  | 0, _ => none
  | fuel + 1, i =>
    if i < t.length then
      if chAt t i '$' && !isEscaped t i then
        some (i + 1)
      else fmrCloseInline t fuel (i + 1)
    else none

/-- Main loop of `findMathRegions`.  On an unescaped `$`: try `$$` first;
a found close appends a region and continues after it; a missing close
returns with no further output (the source breaks out of the loop). -/
def fmrAux (t : Str) : Nat → Nat → List MRegion
  | 0, _ => []
  | fuel + 1, i =>
    if i < t.length then
      if chAt t i '$' && !isEscaped t i then
        if decide (i + 1 < t.length) && chAt t (i+1) '$' && !isEscaped t (i+1) then
          match fmrCloseBlock t t.length (i + 2) with
          | some c => ⟨i, c, true⟩ :: fmrAux t fuel c
          | none => []
        else
          match fmrCloseInline t t.length (i + 1) with
          | some c => ⟨i, c, false⟩ :: fmrAux t fuel c
          | none => []
      else fmrAux t fuel (i + 1)
    else []

/-- `findMathRegions(text)` from ContentEditableEditor.tsx. -/
def findMathRegions (t : Str) : List MRegion := fmrAux t (t.length + 1) 0

/-! ## scanMath (CMMarkdownEditor, part_003 lines 238-268)

Same delimiters, but a single function parameterized on `block`, and with
skip logic for inline scans: an inline opener or closer that starts a
`$$` pair is skipped by one character and retried. -/

/-- Inner close search of `scanMath`.  For `block = true` the close is an
unescaped `$$`; for `block = false` it is an unescaped `$` that does not
start a `$$` (in which case the loop advances one character and
retries). -/
def smClose (t : Str) (block : Bool) : Nat → Nat → Option Nat
  | 0, _ => none
  | fuel + 1, i =>
    if i < t.length then
      if block then
        if chAt t i '$' && chAt t (i+1) '$' && !isEscaped t i then
          some (i + 2)
        else smClose t block fuel (i + 1)
      else
        if chAt t i '$' && !isEscaped t i then
          if chAt t (i+1) '$' then smClose t block fuel (i + 1)
          else some (i + 1)
        else smClose t block fuel (i + 1)
    else none

/-- Outer loop of `scanMath`.  `openLen` is 2 for block, 1 for inline.
An inline opener sitting on a `$$` pair is skipped by one character.  An
opener whose close search fails leaves the index at the end of the text,
so the loop terminates with no further match. -/
def smAux (t : Str) (block : Bool) : Nat → Nat → List (Nat × Nat)
  | 0, _ => []
  | fuel + 1, i =>
    if i < t.length then
      if (if block then chAt t i '$' && chAt t (i+1) '$' else chAt t i '$')
          && !isEscaped t i then
        if !block && chAt t (i+1) '$' then smAux t block fuel (i + 1)
        else
          match smClose t block t.length (i + (if block then 2 else 1)) with
          | some e => (i, e) :: smAux t block fuel e
          | none => []
      else smAux t block fuel (i + 1)
    else []

/-- `scanMath(text, block, onMatch)` from part_003: the list of
`(from, to)` pairs passed to `onMatch`, in order. -/
def scanMath (t : Str) (block : Bool) : List (Nat × Nat) :=
  smAux t block (t.length + 1) 0

/-! Wellformedness of emitted regions: every region produced by either
scanner starts at an unescaped opening delimiter and ends just after a
matching unescaped closing delimiter inside the text.  In particular an
unterminated opening delimiter never yields a region. -/

/-- A `findMathRegions` region is wellformed: unescaped opener at
`start`, matching unescaped closer ending at `stop`, inside the text. -/
def MRegionWF (t : Str) (r : MRegion) : Prop :=
  chAt t r.start '$' = true ∧ isEscaped t r.start = false ∧
  (r.display = true →
    chAt t (r.start + 1) '$' = true ∧ isEscaped t (r.start + 1) = false ∧
    ∃ j, r.stop = j + 2 ∧ r.start + 2 ≤ j ∧ j + 1 < t.length ∧
      chAt t j '$' = true ∧ isEscaped t j = false ∧
      chAt t (j+1) '$' = true ∧ isEscaped t (j+1) = false) ∧
  (r.display = false →
    ∃ j, r.stop = j + 1 ∧ r.start + 1 ≤ j ∧ j < t.length ∧
      chAt t j '$' = true ∧ isEscaped t j = false)

/-- A `scanMath` pair is wellformed in the same sense. -/
def ScanPairWF (t : Str) (block : Bool) (pr : Nat × Nat) : Prop :=
  chAt t pr.1 '$' = true ∧ isEscaped t pr.1 = false ∧
  (block = true →
    chAt t (pr.1 + 1) '$' = true ∧
    ∃ j, pr.2 = j + 2 ∧ pr.1 + 2 ≤ j ∧ j < t.length ∧
      chAt t j '$' = true ∧ chAt t (j+1) '$' = true ∧ isEscaped t j = false) ∧
  (block = false →
    ∃ j, pr.2 = j + 1 ∧ pr.1 + 1 ≤ j ∧ j < t.length ∧
      chAt t j '$' = true ∧ isEscaped t j = false)

theorem fmrCloseInline_sound (t : Str) :
    ∀ fuel i c, fmrCloseInline t fuel i = some c →
      ∃ j, c = j + 1 ∧ i ≤ j ∧ j < t.length ∧
        chAt t j '$' = true ∧ isEscaped t j = false := by
  intro fuel
  induction fuel with
  | zero => intro i c h; simp [fmrCloseInline] at h
  | succ n ih =>
    intro i c h
    unfold fmrCloseInline at h
    by_cases hi : i < t.length
    · rw [if_pos hi] at h
      by_cases hc : (chAt t i '$' && !isEscaped t i) = true
      · rw [if_pos hc] at h
        rw [Bool.and_eq_true] at hc
        injection h with h
        exact ⟨i, h.symm, Nat.le_refl i, hi, hc.1, by simpa using hc.2⟩
      · rw [if_neg hc] at h
        obtain ⟨j, rfl, hij, hrest⟩ := ih (i+1) c h
        exact ⟨j, rfl, Nat.le_of_succ_le hij, hrest⟩
    · rw [if_neg hi] at h; exact absurd h (by simp)

theorem fmrCloseBlock_sound (t : Str) :
    ∀ fuel i c, fmrCloseBlock t fuel i = some c →
      ∃ j, c = j + 2 ∧ i ≤ j ∧ j + 1 < t.length ∧
        chAt t j '$' = true ∧ isEscaped t j = false ∧
        chAt t (j+1) '$' = true ∧ isEscaped t (j+1) = false := by
  intro fuel
  induction fuel with
  | zero => intro i c h; simp [fmrCloseBlock] at h
  | succ n ih =>
    intro i c h
    unfold fmrCloseBlock at h
    by_cases hi : i < t.length
    · rw [if_pos hi] at h
      by_cases hc : (chAt t i '$' && !isEscaped t i && decide (i + 1 < t.length) &&
          chAt t (i+1) '$' && !isEscaped t (i+1)) = true
      · rw [if_pos hc] at h
        injection h with h
        simp only [Bool.and_eq_true, Bool.not_eq_true', decide_eq_true_eq] at hc
        exact ⟨i, h.symm, Nat.le_refl i, hc.1.1.2, hc.1.1.1.1, hc.1.1.1.2, hc.1.2, hc.2⟩
      · rw [if_neg hc] at h
        obtain ⟨j, rfl, hij, hrest⟩ := ih (i+1) c h
        exact ⟨j, rfl, Nat.le_of_succ_le hij, hrest⟩
    · rw [if_neg hi] at h; exact absurd h (by simp)

theorem fmrAux_wf (t : Str) :
    ∀ fuel i r, r ∈ fmrAux t fuel i → MRegionWF t r := by
  intro fuel
  induction fuel with
  | zero => intro i r h; simp [fmrAux] at h
  | succ n ih =>
    intro i r h
    unfold fmrAux at h
    by_cases hi : i < t.length
    · rw [if_pos hi] at h
      by_cases ho : (chAt t i '$' && !isEscaped t i) = true
      · rw [if_pos ho] at h
        rw [Bool.and_eq_true] at ho
        obtain ⟨ho1, ho2⟩ := ho
        have ho2' : isEscaped t i = false := by simpa using ho2
        by_cases hb : (decide (i + 1 < t.length) && chAt t (i+1) '$' && !isEscaped t (i+1)) = true
        · rw [if_pos hb] at h
          simp only [Bool.and_eq_true, Bool.not_eq_true', decide_eq_true_eq] at hb
          cases hcb : fmrCloseBlock t t.length (i + 2) with
          | none => rw [hcb] at h; simp at h
          | some c =>
            rw [hcb] at h
            rcases List.mem_cons.mp h with hr | hr
            · subst hr
              obtain ⟨j, rfl, hij, hjlt, hj1, hj2, hj3, hj4⟩ :=
                fmrCloseBlock_sound t t.length (i+2) c hcb
              refine ⟨ho1, ho2', ?_, ?_⟩
              · intro _
                exact ⟨hb.1.2, hb.2, j, rfl, hij, hjlt, hj1, hj2, hj3, hj4⟩
              · intro hfalse; simp at hfalse
            · exact ih c r hr
        · rw [if_neg hb] at h
          cases hci : fmrCloseInline t t.length (i + 1) with
          | none => rw [hci] at h; simp at h
          | some c =>
            rw [hci] at h
            rcases List.mem_cons.mp h with hr | hr
            · subst hr
              obtain ⟨j, rfl, hij, hjlt, hj1, hj2⟩ :=
                fmrCloseInline_sound t t.length (i+1) c hci
              refine ⟨ho1, ho2', ?_, ?_⟩
              · intro hfalse; simp at hfalse
              · intro _
                exact ⟨j, rfl, hij, hjlt, hj1, hj2⟩
            · exact ih c r hr
      · rw [if_neg ho] at h
        exact ih (i+1) r h
    · rw [if_neg hi] at h; simp at h

theorem smClose_sound (t : Str) (block : Bool) :
    ∀ fuel i c, smClose t block fuel i = some c →
      (block = true → ∃ j, c = j + 2 ∧ i ≤ j ∧ j < t.length ∧
        chAt t j '$' = true ∧ chAt t (j+1) '$' = true ∧ isEscaped t j = false) ∧
      (block = false → ∃ j, c = j + 1 ∧ i ≤ j ∧ j < t.length ∧
        chAt t j '$' = true ∧ isEscaped t j = false) := by
  intro fuel
  induction fuel with
  | zero => intro i c h; simp [smClose] at h
  | succ n ih =>
    intro i c h
    unfold smClose at h
    by_cases hi : i < t.length
    · rw [if_pos hi] at h
      cases block with
      | true =>
        simp only [if_true] at h
        by_cases hc : (chAt t i '$' && chAt t (i+1) '$' && !isEscaped t i) = true
        · rw [if_pos hc] at h
          injection h with h
          simp only [Bool.and_eq_true, Bool.not_eq_true'] at hc
          refine ⟨fun _ => ⟨i, h.symm, Nat.le_refl i, hi, hc.1.1, hc.1.2, hc.2⟩,
            fun hf => by simp at hf⟩
        · rw [if_neg hc] at h
          obtain ⟨hb, _⟩ := ih (i+1) c h
          refine ⟨fun hb' => ?_, fun hf => by simp at hf⟩
          obtain ⟨j, rfl, hij, hrest⟩ := hb hb'
          exact ⟨j, rfl, Nat.le_of_succ_le hij, hrest⟩
      | false =>
        simp only [if_false, Bool.false_eq_true] at h
        by_cases hc : (chAt t i '$' && !isEscaped t i) = true
        · rw [if_pos hc] at h
          by_cases hd : chAt t (i+1) '$' = true
          · rw [if_pos hd] at h
            obtain ⟨_, hinl⟩ := ih (i+1) c h
            refine ⟨fun hf => by simp at hf, fun _ => ?_⟩
            obtain ⟨j, rfl, hij, hrest⟩ := hinl rfl
            exact ⟨j, rfl, Nat.le_of_succ_le hij, hrest⟩
          · rw [if_neg hd] at h
            injection h with h
            simp only [Bool.and_eq_true, Bool.not_eq_true'] at hc
            exact ⟨fun hf => by simp at hf,
              fun _ => ⟨i, h.symm, Nat.le_refl i, hi, hc.1, hc.2⟩⟩
        · rw [if_neg hc] at h
          obtain ⟨_, hinl⟩ := ih (i+1) c h
          refine ⟨fun hf => by simp at hf, fun _ => ?_⟩
          obtain ⟨j, rfl, hij, hrest⟩ := hinl rfl
          exact ⟨j, rfl, Nat.le_of_succ_le hij, hrest⟩
    · rw [if_neg hi] at h; exact absurd h (by simp)

theorem smAux_wf (t : Str) (block : Bool) :
    ∀ fuel i pr, pr ∈ smAux t block fuel i → ScanPairWF t block pr := by
  intro fuel
  induction fuel with
  | zero => intro i pr h; simp [smAux] at h
  | succ n ih =>
    intro i pr h
    unfold smAux at h
    by_cases hi : i < t.length
    · rw [if_pos hi] at h
      by_cases ho : ((if block then chAt t i '$' && chAt t (i+1) '$' else chAt t i '$')
          && !isEscaped t i) = true
      · rw [if_pos ho] at h
        rw [Bool.and_eq_true] at ho
        obtain ⟨ho1, ho2⟩ := ho
        have ho2' : isEscaped t i = false := by simpa using ho2
        by_cases hskip : (!block && chAt t (i+1) '$') = true
        · rw [if_pos hskip] at h
          exact ih (i+1) pr h
        · rw [if_neg hskip] at h
          cases hcl : smClose t block t.length (i + (if block then 2 else 1)) with
          | none => rw [hcl] at h; simp at h
          | some e =>
            rw [hcl] at h
            rcases List.mem_cons.mp h with hr | hr
            · subst hr
              have hs := smClose_sound t block t.length _ e hcl
              cases block with
              | true =>
                simp only [if_true] at ho1
                rw [Bool.and_eq_true] at ho1
                obtain ⟨hd1, hd2⟩ := ho1
                obtain ⟨j, rfl, hij, hrest⟩ := hs.1 rfl
                exact ⟨hd1, ho2', fun _ => ⟨hd2, j, rfl, hij, hrest⟩,
                  fun hf => by simp at hf⟩
              | false =>
                obtain ⟨j, rfl, hij, hrest⟩ := hs.2 rfl
                exact ⟨ho1, ho2', fun hf => by simp at hf,
                  fun _ => ⟨j, rfl, hij, hrest⟩⟩
            · exact ih e pr hr
      · rw [if_neg ho] at h
        exact ih (i+1) pr h
    · rw [if_neg hi] at h; simp at h

/-- No unescaped `$` (an inline close candidate) occurs at any position
`≥ s` of the text. -/
def noInlineCloseFrom (t : Str) (s : Nat) : Prop :=
  ∀ j, j < t.length → s ≤ j → ¬(chAt t j '$' = true ∧ isEscaped t j = false)

/-- No unescaped `$$` pair (a block close candidate in the sense of
`findMathRegions`) starts at any position `≥ s` of the text. -/
def noBlockCloseFrom (t : Str) (s : Nat) : Prop :=
  ∀ j, j < t.length → s ≤ j →
    ¬(j + 1 < t.length ∧ chAt t j '$' = true ∧ isEscaped t j = false ∧
      chAt t (j+1) '$' = true ∧ isEscaped t (j+1) = false)

instance (t : Str) (s : Nat) : Decidable (noInlineCloseFrom t s) :=
  inferInstanceAs (Decidable (∀ j, j < t.length → s ≤ j →
    ¬(chAt t j '$' = true ∧ isEscaped t j = false)))

instance (t : Str) (s : Nat) : Decidable (noBlockCloseFrom t s) :=
  inferInstanceAs (Decidable (∀ j, j < t.length → s ≤ j →
    ¬(j + 1 < t.length ∧ chAt t j '$' = true ∧ isEscaped t j = false ∧
      chAt t (j+1) '$' = true ∧ isEscaped t (j+1) = false)))

theorem fmrCloseInline_none (t : Str) (s : Nat) (hnc : noInlineCloseFrom t s) :
    ∀ fuel i, s ≤ i → fmrCloseInline t fuel i = none := by
  intro fuel
  induction fuel with
  | zero => intro i _; rfl
  | succ n ih =>
    intro i hsi
    unfold fmrCloseInline
    by_cases hi : i < t.length
    · rw [if_pos hi]
      have hcond : ¬ (chAt t i '$' && !isEscaped t i) = true := by
        intro hc
        rw [Bool.and_eq_true] at hc
        exact hnc i hi hsi ⟨hc.1, by simpa using hc.2⟩
      rw [if_neg hcond]
      exact ih (i+1) (Nat.le_succ_of_le hsi)
    · rw [if_neg hi]

theorem fmrCloseBlock_none (t : Str) (s : Nat) (hnc : noBlockCloseFrom t s) :
    ∀ fuel i, s ≤ i → fmrCloseBlock t fuel i = none := by
  intro fuel
  induction fuel with
  | zero => intro i _; rfl
  | succ n ih =>
    intro i hsi
    unfold fmrCloseBlock
    by_cases hi : i < t.length
    · rw [if_pos hi]
      have hcond : ¬ (chAt t i '$' && !isEscaped t i && decide (i + 1 < t.length) &&
          chAt t (i+1) '$' && !isEscaped t (i+1)) = true := by
        intro hc
        simp only [Bool.and_eq_true, Bool.not_eq_true', decide_eq_true_eq] at hc
        exact hnc i hi hsi ⟨hc.1.1.2, hc.1.1.1.1, hc.1.1.1.2, hc.1.2, hc.2⟩
      rw [if_neg hcond]
      exact ih (i+1) (Nat.le_succ_of_le hsi)
    · rw [if_neg hi]

/-- The block-opener test of `findMathRegions` at position `i`
(`i+1 < len && text[i+1] === dollar && !isEscaped(i+1)`). -/
def fmrBlockOpener (t : Str) (i : Nat) : Bool :=
  decide (i + 1 < t.length) && chAt t (i+1) '$' && !isEscaped t (i+1)

/-- A character test at `i` succeeding puts `i` inside the text. -/
theorem chAt_lt (t : Str) (i : Nat) (c : Char) (h : chAt t i c = true) :
    i < t.length := by
  by_contra hge
  have hnone : t[i]? = none := List.getElem?_eq_none (Nat.le_of_not_lt hge)
  simp [chAt, hnone] at h

/-- A position directly after a dollar is never escaped: the backward
backslash run stops at the dollar immediately. -/
theorem isEscaped_after_dollar (t : Str) (p : Nat) (h : chAt t p '$' = true) :
    isEscaped t (p + 1) = false := by
  have hb : chAt t p '\\' = false := by
    have hsome : t[p]? = some '$' := by simpa [chAt] using h
    simp [chAt, hsome]
  show (bsRun t (p + 1) % 2 == 1) = false
  show ((if chAt t p '\\' then bsRun t p + 1 else 0) % 2 == 1) = false
  rw [hb, if_neg Bool.false_ne_true]
  rfl

/-- `findMathRegions` emits an inline region only where the block-opener
test fails: at an opener sitting on an unescaped `$$` pair the scanner
always takes the block branch. -/
theorem fmrAux_inline_opener (t : Str) :
    ∀ fuel i r, r ∈ fmrAux t fuel i → r.display = false →
      fmrBlockOpener t r.start = false := by
  intro fuel
  induction fuel with
  | zero => intro i r h; simp [fmrAux] at h
  | succ n ih =>
    intro i r h hdisp
    unfold fmrAux at h
    by_cases hi : i < t.length
    · rw [if_pos hi] at h
      by_cases ho : (chAt t i '$' && !isEscaped t i) = true
      · rw [if_pos ho] at h
        by_cases hb : (decide (i + 1 < t.length) && chAt t (i+1) '$' &&
            !isEscaped t (i+1)) = true
        · rw [if_pos hb] at h
          cases hcb : fmrCloseBlock t t.length (i + 2) with
          | none => rw [hcb] at h; simp at h
          | some c =>
            rw [hcb] at h
            rcases List.mem_cons.mp h with hr | hr
            · subst hr; simp at hdisp
            · exact ih c r hr hdisp
        · rw [if_neg hb] at h
          cases hci : fmrCloseInline t t.length (i + 1) with
          | none => rw [hci] at h; simp at h
          | some c =>
            rw [hci] at h
            rcases List.mem_cons.mp h with hr | hr
            · subst hr
              show fmrBlockOpener t i = false
              rw [show fmrBlockOpener t i = (decide (i + 1 < t.length) &&
                chAt t (i+1) '$' && !isEscaped t (i+1)) from rfl]
              exact Bool.not_eq_true _ ▸ (Bool.eq_false_iff.mpr hb)
            · exact ih c r hr hdisp
      · rw [if_neg ho] at h
        exact ih (i+1) r h hdisp
    · rw [if_neg hi] at h; simp at h

/-- The inline `scanMath` emits a pair only where the skip test fails: an
opener followed by a second dollar is skipped over, never opened. -/
theorem smAux_inline_opener (t : Str) :
    ∀ fuel i pr, pr ∈ smAux t false fuel i → chAt t (pr.1 + 1) '$' = false := by
  intro fuel
  induction fuel with
  | zero => intro i pr h; simp [smAux] at h
  | succ n ih =>
    intro i pr h
    unfold smAux at h
    by_cases hi : i < t.length
    · rw [if_pos hi] at h
      by_cases ho : ((if false then chAt t i '$' && chAt t (i+1) '$' else chAt t i '$')
          && !isEscaped t i) = true
      · rw [if_pos ho] at h
        by_cases hskip : (!false && chAt t (i+1) '$') = true
        · rw [if_pos hskip] at h
          exact ih (i+1) pr h
        · rw [if_neg hskip] at h
          cases hcl : smClose t false t.length (i + (if false then 2 else 1)) with
          | none => rw [hcl] at h; simp at h
          | some e =>
            rw [hcl] at h
            rcases List.mem_cons.mp h with hr | hr
            · subst hr
              show chAt t (i + 1) '$' = false
              simpa using Bool.eq_false_iff.mpr hskip
            · exact ih e pr hr
      · rw [if_neg ho] at h
        exact ih (i+1) pr h
    · rw [if_neg hi] at h; simp at h

/-- C4: for every input text with an opening math delimiter that has no
matching unescaped closing delimiter before the end of the scan, neither
scanner emits a region for that delimiter, and both scanners are total
functions (no error is raised; the unterminated syntax degrades to plain
text).  The no-close hypothesis is per delimiter kind: a `$$` opener
(second dollar present) only lacks an unescaped closing `$$` pair, a `$`
opener only lacks an unescaped closing dollar. -/
theorem C4_unterminated_emits_no_region (t : Str) (p : Nat)
    (hd : chAt t p '$' = true) (he : isEscaped t p = false)
    (hblk : chAt t (p+1) '$' = true → noBlockCloseFrom t (p+2))
    (hinl : chAt t (p+1) '$' = false → noInlineCloseFrom t (p+1)) :
    (∀ r ∈ findMathRegions t, r.start ≠ p) ∧
    (∀ block pr, pr ∈ scanMath t block → pr.1 ≠ p) := by
  constructor
  · intro r hr hstart
    have wf := fmrAux_wf t (t.length + 1) 0 r hr
    obtain ⟨_, _, hwb, hwi⟩ := wf
    cases hdisp : r.display with
    | true =>
      obtain ⟨hop2, _, j, _, hj2, hjlt, hjd, hje, hjd2, hje2⟩ := hwb hdisp
      rw [hstart] at hop2 hj2
      exact hblk hop2 j (by omega) (by omega) ⟨hjlt, hjd, hje, hjd2, hje2⟩
    | false =>
      cases hpd : chAt t (p+1) '$' with
      | false =>
        obtain ⟨j, _, hj2, hjlt, hjd, hje⟩ := hwi hdisp
        exact hinl hpd j hjlt (by rw [hstart] at hj2; omega) ⟨hjd, hje⟩
      | true =>
        have hop := fmrAux_inline_opener t (t.length + 1) 0 r hr hdisp
        rw [hstart] at hop
        have hlt : p + 1 < t.length := chAt_lt t (p+1) '$' hpd
        have hesc1 : isEscaped t (p+1) = false := isEscaped_after_dollar t p hd
        rw [show fmrBlockOpener t p = (decide (p + 1 < t.length) &&
          chAt t (p+1) '$' && !isEscaped t (p+1)) from rfl, hpd, hesc1] at hop
        simp [hlt] at hop
  · intro block pr hpr hstart
    have wf := smAux_wf t block (t.length + 1) 0 pr hpr
    obtain ⟨_, _, hwb, hwi⟩ := wf
    cases block with
    | true =>
      obtain ⟨hop2, j, _, hj2, hjlt, hjd, hjd2, hje⟩ := hwb rfl
      rw [hstart] at hop2 hj2
      have hlt2 : j + 1 < t.length := chAt_lt t (j+1) '$' hjd2
      have hje2 : isEscaped t (j+1) = false := isEscaped_after_dollar t j hjd
      exact hblk hop2 j hjlt (by omega) ⟨hlt2, hjd, hje, hjd2, hje2⟩
    | false =>
      cases hpd : chAt t (p+1) '$' with
      | false =>
        obtain ⟨j, _, hj2, hjlt, hjd, hje⟩ := hwi rfl
        exact hinl hpd j hjlt (by rw [hstart] at hj2; omega) ⟨hjd, hje⟩
      | true =>
        have hop := smAux_inline_opener t (t.length + 1) 0 pr hpr
        rw [hstart] at hop
        rw [hop] at hpd
        exact absurd hpd (by simp)

/-- Witness for C4, covering both opener kinds: in `$a` the inline
opener at 0 has no unescaped closing dollar; in `$$x$y` the block opener
at 0 has no unescaped closing `$$` pair (though a lone unescaped dollar
follows), and no region of either scanner starts at either opener. -/
theorem C4_witness :
    ((∀ r ∈ findMathRegions (str "$a"), r.start ≠ 0) ∧
      (∀ block pr, pr ∈ scanMath (str "$a") block → pr.1 ≠ 0)) ∧
    ((∀ r ∈ findMathRegions (str "$$x$y"), r.start ≠ 0) ∧
      (∀ block pr, pr ∈ scanMath (str "$$x$y") block → pr.1 ≠ 0)) :=
  ⟨C4_unterminated_emits_no_region (str "$a") 0 (by decide) (by decide)
      (by decide) (by decide),
    C4_unterminated_emits_no_region (str "$$x$y") 0 (by decide) (by decide)
      (by decide) (by decide)⟩

/-- C9: a delimiter is escaped iff it is preceded by an odd number of
consecutive backslashes (counted scanning backward from the position just
before it), and escaped delimiters open or close no math region — every
region of both scanners has an unescaped opener and an unescaped closer.
The same backslash-counting loop appears verbatim as
`findMathRegions.isEscaped` and `scanMath.isEsc`, embedded once as
`isEscaped`. -/
theorem C9_escaped_iff_odd_backslashes :
    (∀ (t : Str) (idx : Nat), idx ≤ t.length →
      (isEscaped t idx = true ↔ Odd (bsRunSpec t idx))) ∧
    (∀ (t : Str) (r : MRegion), r ∈ findMathRegions t →
      isEscaped t r.start = false ∧
      ∃ j, r.start < j ∧ j < r.stop ∧ chAt t j '$' = true ∧
        isEscaped t j = false) ∧
    (∀ (t : Str) (block : Bool) (pr : Nat × Nat), pr ∈ scanMath t block →
      isEscaped t pr.1 = false ∧
      ∃ j, pr.1 < j ∧ j < pr.2 ∧ chAt t j '$' = true ∧
        isEscaped t j = false) := by
  refine ⟨?_, ?_, ?_⟩
  · intro t idx hle
    rw [isEscaped, bsRun_eq_spec t idx hle]
    rw [Nat.odd_iff]
    exact beq_iff_eq
  · intro t r hr
    have wf := fmrAux_wf t (t.length + 1) 0 r hr
    obtain ⟨_, hesc, hblk, hinl⟩ := wf
    refine ⟨hesc, ?_⟩
    cases hdisp : r.display with
    | true =>
      obtain ⟨_, _, j, hstop, hj2, _, hjd, hje, _, _⟩ := hblk hdisp
      exact ⟨j, by omega, by omega, hjd, hje⟩
    | false =>
      obtain ⟨j, hstop, hj2, _, hjd, hje⟩ := hinl hdisp
      exact ⟨j, by omega, by omega, hjd, hje⟩
  · intro t block pr hpr
    have wf := smAux_wf t block (t.length + 1) 0 pr hpr
    obtain ⟨_, hesc, hblk, hinl⟩ := wf
    refine ⟨hesc, ?_⟩
    cases block with
    | true =>
      obtain ⟨_, j, hstop, hj2, _, hjd, _, hje⟩ := hblk rfl
      exact ⟨j, by omega, by omega, hjd, hje⟩
    | false =>
      obtain ⟨j, hstop, hj2, _, hjd, hje⟩ := hinl rfl
      exact ⟨j, by omega, by omega, hjd, hje⟩

/-- Witness for C9 at concrete inputs: position 2 of `\\$` (two
backslashes, even count: not escaped per the characterization), the
single region of `$x$` in `findMathRegions`, and of `$x$` in the inline
`scanMath`. -/
theorem C9_witness :
    (isEscaped (str "\\\\$") 2 = true ↔ Odd (bsRunSpec (str "\\\\$") 2)) ∧
    (isEscaped (str "$x$") 0 = false ∧
      ∃ j, 0 < j ∧ j < 3 ∧ chAt (str "$x$") j '$' = true ∧
        isEscaped (str "$x$") j = false) ∧
    (isEscaped (str "$x$") 0 = false ∧
      ∃ j, 0 < j ∧ j < 3 ∧ chAt (str "$x$") j '$' = true ∧
        isEscaped (str "$x$") j = false) :=
  ⟨C9_escaped_iff_odd_backslashes.1 (str "\\\\$") 2 (by decide),
   C9_escaped_iff_odd_backslashes.2.1 (str "$x$") ⟨0, 3, false⟩ (by decide),
   C9_escaped_iff_odd_backslashes.2.2 (str "$x$") false (0, 3) (by decide)⟩

/-- C10: once `findMathRegions` encounters an unescaped opening
delimiter with no matching unescaped closing delimiter, the scan returns
no further region at all (the source breaks out of its loop), so any
well-formed delimiter pair occurring later in the text yields no region.
Stated for the scan loop `fmrAux` at the position `i` of the opener, for
every fuel, together with the whole-text corollary. -/
theorem C10_unmatched_opener_stops_scan (t : Str) (i : Nat)
    (h1 : i < t.length) (h2 : chAt t i '$' = true) (h3 : isEscaped t i = false)
    (h4 : fmrBlockOpener t i = true → noBlockCloseFrom t (i+2))
    (h5 : fmrBlockOpener t i = false → noInlineCloseFrom t (i+1)) :
    (∀ fuel, fmrAux t fuel i = []) ∧ (i = 0 → findMathRegions t = []) := by
  have hmain : ∀ fuel, fmrAux t fuel i = [] := by
    intro fuel
    cases fuel with
    | zero => rfl
    | succ n =>
      unfold fmrAux
      rw [if_pos h1]
      have hcond : (chAt t i '$' && !isEscaped t i) = true := by
        rw [Bool.and_eq_true]; exact ⟨h2, by simpa using h3⟩
      rw [if_pos hcond]
      cases hb : fmrBlockOpener t i with
      | true =>
        have : (decide (i + 1 < t.length) && chAt t (i+1) '$' &&
            !isEscaped t (i+1)) = true := hb
        rw [if_pos this]
        rw [fmrCloseBlock_none t (i+2) (h4 hb) t.length (i+2) (Nat.le_refl _)]
      | false =>
        have : ¬ (decide (i + 1 < t.length) && chAt t (i+1) '$' &&
            !isEscaped t (i+1)) = true := by
          rw [show (decide (i + 1 < t.length) && chAt t (i+1) '$' &&
            !isEscaped t (i+1)) = fmrBlockOpener t i from rfl, hb]
          simp
        rw [if_neg this]
        rw [fmrCloseInline_none t (i+1) (h5 hb) t.length (i+1) (Nat.le_refl _)]
  refine ⟨hmain, fun hz => ?_⟩
  subst hz
  rw [findMathRegions]
  exact hmain _

/-- Witness for C10: in `$$a $x$ b` the block opener at position 0 has
no block close, so the scan stops at once: the later well-formed pair
`$x$` yields no region and the whole result is empty. -/
theorem C10_witness :
    (∀ fuel, fmrAux (str "$$a $x$ b") fuel 0 = []) ∧
    (0 = 0 → findMathRegions (str "$$a $x$ b") = []) :=
  C10_unmatched_opener_stops_scan (str "$$a $x$ b") 0
    (by decide) (by decide) (by decide) (by decide) (by decide)

/-! ## Render decision policy (part_003 lines 42-49 and 173-175)

`decorateDoc` computes `sel = state.selection.main` and passes `sel.from`
— never `sel.to` — to `shouldKeepRaw`; image regions are decorated
unconditionally (lines 173-175), matching the `type === image` branch. -/

/-- `shouldKeepRaw(from, to, pos, type)`: images never revert to raw;
any other region keeps raw iff
`pos > from && pos < to || pos === from || pos === to`. -/
def shouldKeepRaw (lo hi pos : Nat) (ty : Option String) : Bool :=
  if ty == some "image" then false
  else (decide (pos > lo) && decide (pos < hi)) || pos == lo || pos == hi

/-- The decision policy exactly as the specification claims it: raw when
the selection is a range overlapping the span, or a collapsed caret
strictly inside or exactly at either boundary; images always rendered.
`a`/`h` are the selection anchor and head; its range is
`[min a h, max a h)`. -/
def specRawClaim (lo hi a h : Nat) (isImage : Bool) : Bool :=
  !isImage &&
    ((a != h && decide (max lo (min a h) < min hi (max a h))) ||
     (a == h && ((decide (lo < a) && decide (a < hi)) || a == lo || a == hi)))

/-- Counterexample to C1: the selection `(anchor 2, head 6)` is a range
overlapping the span `[5, 8]`, so the claim decides raw; the code passes
only `sel.from = 2` to `shouldKeepRaw`, which decides rendered. -/
theorem C1_counterexample :
    specRawClaim 5 8 2 6 false = true ∧ shouldKeepRaw 5 8 2 none = false := by
  decide

/-- C1 amended: the decision uses only `sel.from`; a non-image region is
kept raw iff `span.start ≤ sel.from ≤ span.end` — equivalently it is
rendered iff `sel.from` lies strictly outside `[span.start, span.end]` —
and image regions always decide rendered. -/
theorem C1_amended_policy (lo hi pos : Nat) (ty : Option String) (hlohi : lo ≤ hi) :
    (shouldKeepRaw lo hi pos ty = true ↔
      (ty ≠ some "image" ∧ lo ≤ pos ∧ pos ≤ hi)) ∧
    (shouldKeepRaw lo hi pos ty = false ↔
      (ty = some "image" ∨ pos < lo ∨ hi < pos)) := by
  have hiff : shouldKeepRaw lo hi pos ty = true ↔
      (ty ≠ some "image" ∧ lo ≤ pos ∧ pos ≤ hi) := by
    unfold shouldKeepRaw
    by_cases hty : (ty == some "image") = true
    · have hty2 : ty = some "image" := by simpa using hty
      rw [if_pos hty]
      simp [hty2]
    · have hty2 : ty ≠ some "image" := by simpa using hty
      rw [if_neg hty]
      simp only [Bool.or_eq_true, Bool.and_eq_true, decide_eq_true_eq, beq_iff_eq]
      constructor
      · intro hcases; exact ⟨hty2, by omega⟩
      · intro ⟨_, hp1, hp2⟩; omega
  refine ⟨hiff, ?_, ?_⟩
  · intro hfalse
    by_cases hty : ty = some "image"
    · exact Or.inl hty
    · refine Or.inr ?_
      by_contra hcon
      push_neg at hcon
      have htrue : shouldKeepRaw lo hi pos ty = true := hiff.mpr ⟨hty, by omega⟩
      rw [htrue] at hfalse
      exact Bool.noConfusion hfalse
  · intro hcases
    by_contra hcon
    have htrue : shouldKeepRaw lo hi pos ty = true := by
      cases hb : shouldKeepRaw lo hi pos ty
      · exact absurd hb hcon
      · rfl
    obtain ⟨h1, h2, h3⟩ := hiff.mp htrue
    rcases hcases with hc | hc | hc
    · exact h1 hc
    · omega
    · omega

/-- Witness for the amended C1 at the concrete span `[0, 3]`, caret 1,
non-image type. -/
theorem C1_witness :
    ((shouldKeepRaw 0 3 1 none = true ↔
      (none ≠ some "image" ∧ 0 ≤ 1 ∧ 1 ≤ 3)) ∧
     (shouldKeepRaw 0 3 1 none = false ↔
      (none = some "image" ∨ 1 < 0 ∨ 3 < 1))) :=
  C1_amended_policy 0 3 1 none (by decide)

/-! ## Autosave debouncing (C5)

ContentEditableEditor lines 527-544: every call clears the pending timer
and schedules a new one; when it expires, `onAutoSave(newValue)` runs
only if `newValue !== value` (the last externally supplied, i.e.
persisted, document value).  CMMarkdownEditor lines 1134-1143: every doc
change clears the pending timer and schedules
`setTimeout(() => onAutoSave(text), 800)` — with no equality guard. -/

/-- A document mutation inside one debounce window: cancel the pending
timer and schedule the newest value (both implementations). -/
def debMut (pending : Option String) (v : String) : Option String := some v

/-- Expiry of the pending timer in ContentEditableEditor: the scheduled
value is delivered only when it differs from the last persisted value. -/
def ceeFire (lastPersisted : String) (pending : Option String) : List String :=
  match pending with
  | some v => if v ≠ lastPersisted then [v] else []
  | none => []

/-- Expiry of the pending timer in CMMarkdownEditor: the scheduled value
is always delivered. -/
def cmFire (pending : Option String) : List String :=
  match pending with
  | some v => [v]
  | none => []

/-- One debounce window of the ContentEditable editor: a burst of
mutations, then the single surviving timer expires. -/
def ceeBurst (lastPersisted : String) (muts : List String) : List String :=
  ceeFire lastPersisted (muts.foldl debMut none)

/-- One debounce window of the CodeMirror editor. -/
def cmBurst (muts : List String) : List String :=
  cmFire (muts.foldl debMut none)

theorem debMut_foldl (muts : List String) (p : Option String) (hne : muts ≠ []) :
    muts.foldl debMut p = muts.getLast? := by
  induction muts generalizing p with
  | nil => exact absurd rfl hne
  | cons c cs ih =>
    cases cs with
    | nil => rfl
    | cons d ds =>
      show (d :: ds).foldl debMut (some c) = _
      rw [ih (some c) (by simp)]
      rfl

/-- Counterexample to C5: with last persisted value `a` and a burst
whose debounced (final) value is again `a`, the CMMarkdownEditor
implementation still invokes `onAutoSave` once — its update listener has
no equality guard against the last persisted value. -/
theorem C5_counterexample :
    (["b", "a"].foldl debMut none = some "a") ∧ cmBurst ["b", "a"] ≠ [] := by
  decide

/-- C5 amended: in both editors `onAutoSave` runs at most once per
debounce window regardless of burst size, always carrying the final
mutation value; the ContentEditable editor additionally skips the call
when that value equals the last persisted value, while the CodeMirror
editor fires unconditionally. -/
theorem C5_amended_debounce (lastPersisted : String) (muts : List String) :
    (ceeBurst lastPersisted muts).length ≤ 1 ∧
    (cmBurst muts).length ≤ 1 ∧
    (∀ v ∈ ceeBurst lastPersisted muts,
      muts.getLast? = some v ∧ v ≠ lastPersisted) ∧
    (∀ v ∈ cmBurst muts, muts.getLast? = some v) := by
  cases hm : muts with
  | nil =>
    refine ⟨?_, ?_, ?_, ?_⟩ <;> simp [ceeBurst, cmBurst, ceeFire, cmFire]
  | cons c cs =>
    have hfold : muts.foldl debMut none = muts.getLast? :=
      debMut_foldl muts none (by rw [hm]; simp)
    rw [← hm]
    unfold ceeBurst cmBurst
    rw [hfold]
    cases hlast : muts.getLast? with
    | none => refine ⟨?_, ?_, ?_, ?_⟩ <;> simp [ceeFire, cmFire]
    | some v =>
      simp only [ceeFire, cmFire]
      by_cases hv : v ≠ lastPersisted
      · rw [if_pos hv]
        refine ⟨by simp, by simp, ?_, ?_⟩
        · intro w hw
          rcases List.mem_singleton.mp hw with rfl
          exact ⟨rfl, hv⟩
        · intro w hw
          rcases List.mem_singleton.mp hw with rfl
          exact rfl
      · rw [if_neg hv]
        refine ⟨by simp, by simp, by simp, ?_⟩
        intro w hw
        rcases List.mem_singleton.mp hw with rfl
        exact rfl

/-- Witness for the amended C5: a two-keystroke burst with last
persisted value `a` produces at most one call in each editor, carrying
the final value `c`. -/
theorem C5_witness :
    (ceeBurst "a" ["b", "c"]).length ≤ 1 ∧
    (cmBurst ["b", "c"]).length ≤ 1 ∧
    (["b", "c"].getLast? = some "c" ∧ "c" ≠ "a") ∧
    ["b", "c"].getLast? = some "c" :=
  ⟨(C5_amended_debounce "a" ["b", "c"]).1,
   (C5_amended_debounce "a" ["b", "c"]).2.1,
   (C5_amended_debounce "a" ["b", "c"]).2.2.1 "c" (by decide),
   (C5_amended_debounce "a" ["b", "c"]).2.2.2 "c" (by decide)⟩

/-! ## Checklist toggle (C6)

`ChecklistWidget.toggleCheckbox` (part_003 lines 998-1024) looks up the
line containing the widget position with `doc.lineAt`, produces
`lineText.replace(tok, flippedTok)` — JavaScript `String.replace` with a
string argument replaces only the first occurrence — and dispatches a
change covering exactly `[line.from, line.to)`.  The document is modeled
as its list of lines (CodeMirror lines are the segments between newline
characters); `k` is the number of the line containing `this.from`. -/

/-- JavaScript whitespace (the class `\s`), restricted to the characters
relevant here. -/
def isWsChar (c : Char) : Bool :=
  c == ' ' || c == '\t' || c == '\n' || c == '\r' || c == '\x0B' ||
  c == '\x0C' || c == '\u00A0'

/-- Split a document into its lines (the behavior of splitting on the
newline character; CodeMirror numbers these segments as lines). -/
def splitls : Str → List Str
  | [] => [[]]
  | c :: cs =>
    if c = '\n' then [] :: splitls cs
    else
      match splitls cs with
      | [] => [[c]]
      | l :: ls => (c :: l) :: ls

/-- Join lines back with newline separators. -/
def joinNl : List Str → Str
  | [] => []
  | [l] => l
  | l :: ls => l ++ '\n' :: joinNl ls

theorem splitls_ne_nil (s : Str) : splitls s ≠ [] := by
  cases s with
  | nil => simp [splitls]
  | cons c cs =>
    unfold splitls
    by_cases hc : c = '\n'
    · rw [if_pos hc]; simp
    · rw [if_neg hc]
      cases splitls cs <;> simp

theorem joinNl_splitls (s : Str) : joinNl (splitls s) = s := by
  induction s with
  | nil => rfl
  | cons c cs ih =>
    unfold splitls
    by_cases hc : c = '\n'
    · rw [if_pos hc, hc]
      cases hcs : splitls cs with
      | nil => exact absurd hcs (splitls_ne_nil cs)
      | cons l ls =>
        show ([] : Str) ++ '\n' :: joinNl (l :: ls) = '\n' :: cs
        rw [List.nil_append, ← hcs, ih]
    · rw [if_neg hc]
      cases hcs : splitls cs with
      | nil => exact absurd hcs (splitls_ne_nil cs)
      | cons l ls =>
        cases ls with
        | nil =>
          have hl : l = cs := by rw [hcs] at ih; exact ih
          show c :: l = c :: cs
          rw [hl]
        | cons m ms =>
          show (c :: l) ++ '\n' :: joinNl (m :: ms) = c :: cs
          rw [hcs] at ih
          exact congrArg (c :: ·) ih

theorem splitls_no_nl (s : Str) : ∀ l ∈ splitls s, '\n' ∉ l := by
  induction s with
  | nil => intro l hl; simp [splitls] at hl; subst hl; simp
  | cons c cs ih =>
    intro l hl
    unfold splitls at hl
    by_cases hc : c = '\n'
    · rw [if_pos hc] at hl
      rcases List.mem_cons.mp hl with rfl | hmem
      · simp
      · exact ih l hmem
    · rw [if_neg hc] at hl
      cases hcs : splitls cs with
      | nil => exact absurd hcs (splitls_ne_nil cs)
      | cons m ms =>
        rw [hcs] at hl
        rcases List.mem_cons.mp hl with rfl | hmem
        · intro hmem2
          rcases List.mem_cons.mp hmem2 with h1 | h2
          · exact hc h1.symm
          · exact ih m (by rw [hcs]; exact List.mem_cons_self m ms) h2
        · exact ih l (by rw [hcs]; exact List.mem_cons_of_mem m hmem)

theorem splitls_single (l : Str) (h : '\n' ∉ l) : splitls l = [l] := by
  induction l with
  | nil => rfl
  | cons c cs ih =>
    have hc : c ≠ '\n' := fun he => h (he ▸ List.mem_cons_self c cs)
    unfold splitls
    rw [if_neg hc, ih (fun hm => h (List.mem_cons_of_mem c hm))]

theorem splitls_append_nl (l r : Str) (h : '\n' ∉ l) :
    splitls (l ++ '\n' :: r) = l :: splitls r := by
  induction l with
  | nil => simp [splitls]
  | cons c cs ih =>
    have hc : c ≠ '\n' := fun he => h (he ▸ List.mem_cons_self c cs)
    show splitls (c :: (cs ++ '\n' :: r)) = (c :: cs) :: splitls r
    conv_lhs => rw [splitls]
    rw [if_neg hc, ih (fun hm => h (List.mem_cons_of_mem c hm))]

theorem splitls_joinNl (ls : List Str) (hne : ls ≠ [])
    (hnl : ∀ l ∈ ls, '\n' ∉ l) : splitls (joinNl ls) = ls := by
  induction ls with
  | nil => exact absurd rfl hne
  | cons l ms ih =>
    cases ms with
    | nil => exact splitls_single l (hnl l (List.mem_cons_self l []))
    | cons m ms2 =>
      show splitls (l ++ '\n' :: joinNl (m :: ms2)) = _
      rw [splitls_append_nl l _ (hnl l (List.mem_cons_self l _)),
        ih (by simp) (fun x hx => hnl x (List.mem_cons_of_mem l hx))]

/-- JavaScript `String.replace` with a plain-string search argument:
replace the first occurrence of `nd` by `r`, or return the string
unchanged when `nd` does not occur. -/
def replaceFirst : Str → Str → Str → Str
  | [], _, _ => []
  | c :: cs, nd, r =>
    if nd.isPrefixOf (c :: cs) then r ++ (c :: cs).drop nd.length
    else c :: replaceFirst cs nd r

/-- The checkbox token `- [c]` of a checklist line. -/
def chkTok (c : Char) : Str := ['-', ' ', '[', c, ']']

theorem isWsChar_ne_dash (w : Char) (h : isWsChar w = true) : ('-' == w) = false := by
  by_contra hcon
  have hw : ('-' == w) = true := by
    cases hb : ('-' == w)
    · exact absurd hb hcon
    · rfl
  have hwd : w = '-' := (beq_iff_eq.mp hw).symm
  subst hwd
  exact absurd h (by decide)

theorem replaceFirst_checklist (indent rest : Str) (c c2 : Char)
    (hws : ∀ w ∈ indent, isWsChar w = true) :
    replaceFirst (indent ++ chkTok c ++ rest) (chkTok c) (chkTok c2) =
      indent ++ chkTok c2 ++ rest := by
  induction indent with
  | nil =>
    show replaceFirst ('-' :: ' ' :: '[' :: c :: ']' :: rest) (chkTok c) (chkTok c2) = _
    unfold replaceFirst
    have hpref : (chkTok c).isPrefixOf ('-' :: ' ' :: '[' :: c :: ']' :: rest) = true := by
      simp [chkTok, List.isPrefixOf]
    rw [if_pos hpref]
    show chkTok c2 ++ ('-' :: ' ' :: '[' :: c :: ']' :: rest).drop 5 = _
    rfl
  | cons w ws ih =>
    show replaceFirst (w :: (ws ++ chkTok c ++ rest)) (chkTok c) (chkTok c2) = _
    unfold replaceFirst
    have hnp : (chkTok c).isPrefixOf (w :: (ws ++ chkTok c ++ rest)) = false := by
      show ('-' == w && _) = false
      rw [isWsChar_ne_dash w (hws w (List.mem_cons_self w ws))]
      rfl
    rw [hnp]
    show w :: replaceFirst (ws ++ chkTok c ++ rest) (chkTok c) (chkTok c2) = _
    rw [ih (fun x hx => hws x (List.mem_cons_of_mem w hx))]
    rfl

/-- `toggleCheckbox` of the checklist widget: flip the first checkbox
token of the line at index `k` (the line containing the widget position)
and splice the new line back over exactly that line span. -/
def toggleCheckbox (doc : Str) (k : Nat) (checked : Bool) : Str :=
  match (splitls doc)[k]? with
  | none => doc
  | some line =>
    let nl := if checked then replaceFirst line (str "- [x]") (str "- [ ]")
              else replaceFirst line (str "- [ ]") (str "- [x]")
    joinNl ((splitls doc).set k nl)

/-- Core of the checklist toggle: splicing a flipped line over line `k`
changes exactly that line and changes the document. -/
theorem toggleSpliced (doc : Str) (k : Nat) (indent rest : Str) (c c2 : Char)
    (hline : (splitls doc)[k]? = some (indent ++ chkTok c ++ rest))
    (hnl2 : '\n' ∉ (indent ++ chkTok c2 ++ rest))
    (hne : c ≠ c2) :
    (splitls (joinNl ((splitls doc).set k (indent ++ chkTok c2 ++ rest))))[k]? =
      some (indent ++ chkTok c2 ++ rest) ∧
    (∀ j, j ≠ k →
      (splitls (joinNl ((splitls doc).set k (indent ++ chkTok c2 ++ rest))))[j]? =
      (splitls doc)[j]?) ∧
    joinNl ((splitls doc).set k (indent ++ chkTok c2 ++ rest)) ≠ doc := by
  have hklt : k < (splitls doc).length := by
    by_contra hcon
    rw [List.getElem?_eq_none (Nat.le_of_not_lt hcon)] at hline
    exact Option.noConfusion hline
  have hsplit2 : splitls (joinNl ((splitls doc).set k (indent ++ chkTok c2 ++ rest))) =
      (splitls doc).set k (indent ++ chkTok c2 ++ rest) := by
    apply splitls_joinNl
    · intro hcon
      have hlen := List.length_set (splitls doc) k (indent ++ chkTok c2 ++ rest)
      rw [hcon] at hlen
      simp at hlen
      rw [← hlen] at hklt
      exact Nat.not_lt_zero k hklt
    · intro l hl
      rcases List.mem_or_eq_of_mem_set hl with hmem | rfl
      · exact splitls_no_nl doc l hmem
      · exact hnl2
  refine ⟨?_, ?_, ?_⟩
  · rw [hsplit2]
    exact List.getElem?_set_eq_of_lt _ hklt
  · intro j hj
    rw [hsplit2]
    exact List.getElem?_set_ne (fun he => hj he.symm)
  · intro heq
    have hk2 : (splitls doc)[k]? = some (indent ++ chkTok c2 ++ rest) := by
      rw [← heq, hsplit2]
      exact List.getElem?_set_eq_of_lt _ hklt
    rw [hline] at hk2
    have hlines := Option.some.inj hk2
    have hmid : chkTok c ++ rest = chkTok c2 ++ rest := by
      rw [List.append_assoc, List.append_assoc] at hlines
      exact List.append_cancel_left hlines
    simp [chkTok] at hmid
    exact hne hmid

/-- C6: toggling a checklist line `indent- [ ] label` / `indent- [x] label`
flips exactly the checkbox token of that line, leaves the indentation and
label untouched, leaves every other line byte-identical, and changes the
document (so the dispatched transaction has `docChanged` and the update
listener invokes `onChange`). -/
theorem C6_checklist_toggle (doc : Str) (k : Nat) (checked : Bool)
    (indent rest : Str) (hws : ∀ w ∈ indent, isWsChar w = true)
    (hrestnl : '\n' ∉ rest) (hindnl : '\n' ∉ indent)
    (hline : (splitls doc)[k]? =
      some (indent ++ chkTok (if checked then 'x' else ' ') ++ rest)) :
    (splitls (toggleCheckbox doc k checked))[k]? =
      some (indent ++ chkTok (if checked then ' ' else 'x') ++ rest) ∧
    (∀ j, j ≠ k →
      (splitls (toggleCheckbox doc k checked))[j]? = (splitls doc)[j]?) ∧
    toggleCheckbox doc k checked ≠ doc := by
  cases checked with
  | true =>
    simp only [eq_self_iff_true, if_true] at hline ⊢
    have hnl2 : '\n' ∉ (indent ++ chkTok ' ' ++ rest) := by
      intro hmem
      rcases List.mem_append.mp hmem with h2 | hr
      · rcases List.mem_append.mp h2 with hi | htok
        · exact hindnl hi
        · simp [chkTok] at htok
      · exact hrestnl hr
    have htog : toggleCheckbox doc k true =
        joinNl ((splitls doc).set k (indent ++ chkTok ' ' ++ rest)) := by
      unfold toggleCheckbox
      rw [hline]
      show joinNl ((splitls doc).set k
        (replaceFirst (indent ++ chkTok 'x' ++ rest) (chkTok 'x') (chkTok ' '))) = _
      rw [replaceFirst_checklist indent rest 'x' ' ' hws]
    rw [htog]
    exact toggleSpliced doc k indent rest 'x' ' ' hline hnl2 (by decide)
  | false =>
    simp only [Bool.false_eq_true, if_false] at hline ⊢
    have hnl2 : '\n' ∉ (indent ++ chkTok 'x' ++ rest) := by
      intro hmem
      rcases List.mem_append.mp hmem with h2 | hr
      · rcases List.mem_append.mp h2 with hi | htok
        · exact hindnl hi
        · simp [chkTok] at htok
      · exact hrestnl hr
    have htog : toggleCheckbox doc k false =
        joinNl ((splitls doc).set k (indent ++ chkTok 'x' ++ rest)) := by
      unfold toggleCheckbox
      rw [hline]
      show joinNl ((splitls doc).set k
        (replaceFirst (indent ++ chkTok ' ' ++ rest) (chkTok ' ') (chkTok 'x'))) = _
      rw [replaceFirst_checklist indent rest ' ' 'x' hws]
    rw [htog]
    exact toggleSpliced doc k indent rest ' ' 'x' hline hnl2 (by decide)

/-- Witness for C6: toggling the unchecked box of line 1 of
`a\n- [ ] buy milk\nb`. -/
theorem C6_witness :
    (splitls (toggleCheckbox (str "a\n- [ ] buy milk\nb") 1 false))[1]? =
      some (([] : Str) ++ chkTok 'x' ++ str " buy milk") ∧
    (∀ j, j ≠ 1 →
      (splitls (toggleCheckbox (str "a\n- [ ] buy milk\nb") 1 false))[j]? =
      (splitls (str "a\n- [ ] buy milk\nb"))[j]?) ∧
    toggleCheckbox (str "a\n- [ ] buy milk\nb") 1 false ≠ str "a\n- [ ] buy milk\nb" := by
  have h := C6_checklist_toggle (str "a\n- [ ] buy milk\nb") 1 false
    [] (str " buy milk") (by intro w hw; exact absurd hw (by simp))
    (by decide) (by decide) (by decide)
  simpa using h

/-! ## ContentEditable rendering and serialization (C2, C7)

`renderMarkdownInto` (ContentEditableEditor lines 46-72) splits the
document at newlines, converts each `![alt](src)` occurrence of a line to
an `img` element carrying its exact source in `data-markdown`, inserts a
`br` element between lines, and keeps everything else as text nodes.
`convertMathInPlace` (lines 294-380) then splits each text node into
plain segments and KaTeX widgets carrying `data-latex`, appending a `br`
after each block widget.  `serializeDomToMarkdown` (lines 75-110) walks
the view: text contributes its data, `br` contributes a newline, `img`
contributes its `data-markdown` and is not descended into, and a math
widget contributes its canonical delimited form followed by the
contribution of its descendants — the walker descends into every element
except `IMG`, so the text nodes of the KaTeX markup inside the widget are
pushed as well.  The markup is whatever `katexRenderToString` produced
for the latex and display mode, so its total pushed contribution is a
fixed function of the two; the embedding carries that contribution as the
`ktext` field of a math node.  Finally carriage returns are
normalized. -/

/-- A node of the contentEditable view tree, as far as serialization is
concerned. -/
inductive VNode where
  | txt (s : Str)
  | br
  | img (md : Str)
  | math (latex : Str) (block : Bool) (ktext : Str)
deriving DecidableEq, Repr

/-- Split at the first occurrence of `nd`: `some (before, after)` with
the needle removed, mirroring a lazy `.*?` up to a literal. -/
def splitSub (nd : Str) : Str → Option (Str × Str)
  | [] => none
  | c :: cs =>
    if nd.isPrefixOf (c :: cs) then some ([], (c :: cs).drop nd.length)
    else
      match splitSub nd cs with
      | some (p, q) => some (c :: p, q)
      | none => none

theorem isPrefixOf_append_drop (nd : Str) :
    ∀ s, nd.isPrefixOf s = true → s = nd ++ s.drop nd.length := by
  induction nd with
  | nil => intro s _; simp
  | cons a as ih =>
    intro s h
    cases s with
    | nil => simp [List.isPrefixOf] at h
    | cons b bs =>
      simp only [List.isPrefixOf, Bool.and_eq_true, beq_iff_eq] at h
      obtain ⟨rfl, h2⟩ := h
      have := ih bs h2
      simp only [List.length_cons, List.drop_succ_cons]
      exact congrArg (a :: ·) this

theorem splitSub_eq (nd : Str) :
    ∀ s p q, splitSub nd s = some (p, q) → s = p ++ nd ++ q := by
  intro s
  induction s with
  | nil => intro p q h; simp [splitSub] at h
  | cons c cs ih =>
    intro p q h
    unfold splitSub at h
    by_cases hp : nd.isPrefixOf (c :: cs) = true
    · rw [if_pos hp] at h
      injection h with h
      simp only [Prod.mk.injEq] at h
      obtain ⟨rfl, rfl⟩ := h
      simpa using isPrefixOf_append_drop nd (c :: cs) hp
    · rw [if_neg hp] at h
      cases hcs : splitSub nd cs with
      | none => rw [hcs] at h; exact absurd h (by simp)
      | some pq =>
        obtain ⟨p0, q0⟩ := pq
        rw [hcs] at h
        injection h with h
        simp only [Prod.mk.injEq] at h
        obtain ⟨rfl, rfl⟩ := h
        have := ih p0 q0 hcs
        rw [this]
        rfl

/-- The markdown source of an image token `![alt](src)`. -/
def imgFull (alt src : Str) : Str :=
  '!' :: '[' :: (alt ++ ']' :: '(' :: (src ++ [')']))

/-- The image regex of `renderMarkdownInto` and `convertImagesInPlace`
at one position: `![` then a lazy alt up to the first `](`, then a lazy
src up to the first `)`, alt and src free of newlines. -/
def imgMatchHead (s : Str) : Option (Str × Str × Str) :=
  match s with
  | c1 :: c2 :: t =>
    if c1 = '!' ∧ c2 = '[' then
      (splitSub (str "](") t).bind fun au =>
        (splitSub (str ")") au.2).bind fun sr =>
          if decide ('\n' ∉ au.1) && decide ('\n' ∉ sr.1) then
            some (au.1, sr.1, sr.2)
          else none
    else none
  | _ => none

/-- Global scan step: first image match in the text, with the text
before it. -/
def findImg : Str → Option (Str × Str × Str × Str)
  | [] => none
  | c :: cs =>
    match imgMatchHead (c :: cs) with
    | some (alt, src, rest) => some ([], alt, src, rest)
    | none =>
      match findImg cs with
      | some (b, alt, src, rest) => some (c :: b, alt, src, rest)
      | none => none

theorem imgMatchHead_eq (s alt src rest : Str)
    (h : imgMatchHead s = some (alt, src, rest)) :
    s = imgFull alt src ++ rest := by
  cases s with
  | nil => exact absurd h (by simp [imgMatchHead])
  | cons c1 s1 =>
    cases s1 with
    | nil => exact absurd h (by simp [imgMatchHead])
    | cons c2 t =>
      simp only [imgMatchHead] at h
      by_cases hc : c1 = '!' ∧ c2 = '['
      · rw [if_pos hc] at h
        obtain ⟨rfl, rfl⟩ := hc
        cases h1 : splitSub (str "](") t with
        | none => rw [h1] at h; exact absurd h (by simp)
        | some au =>
          obtain ⟨alt0, u⟩ := au
          rw [h1] at h
          simp only [Option.some_bind] at h
          cases h2 : splitSub (str ")") u with
          | none => rw [h2] at h; exact absurd h (by simp)
          | some sr =>
            obtain ⟨src0, rest0⟩ := sr
            rw [h2] at h
            simp only [Option.some_bind] at h
            by_cases hnl : (decide ('\n' ∉ alt0) && decide ('\n' ∉ src0)) = true
            · rw [if_pos hnl] at h
              injection h with h
              simp only [Prod.mk.injEq] at h
              obtain ⟨rfl, rfl, rfl⟩ := h
              have e1 := splitSub_eq _ t alt0 u h1
              have e2 := splitSub_eq _ u src0 rest0 h2
              rw [e1, e2]
              simp [imgFull, str]
            · rw [if_neg hnl] at h
              exact absurd h (by simp)
      · rw [if_neg hc] at h
        exact absurd h (by simp)

theorem findImg_eq (s : Str) :
    ∀ b alt src rest, findImg s = some (b, alt, src, rest) →
      s = b ++ imgFull alt src ++ rest := by
  induction s with
  | nil => intro b alt src rest h; simp [findImg] at h
  | cons c cs ih =>
    intro b alt src rest h
    unfold findImg at h
    cases hm : imgMatchHead (c :: cs) with
    | some asr =>
      obtain ⟨alt0, src0, rest0⟩ := asr
      rw [hm] at h
      injection h with h
      simp only [Prod.mk.injEq] at h
      obtain ⟨rfl, rfl, rfl, rfl⟩ := h
      simpa using imgMatchHead_eq (c :: cs) alt0 src0 rest0 hm
    | none =>
      rw [hm] at h
      cases hf : findImg cs with
      | none => rw [hf] at h; exact absurd h (by simp)
      | some bas =>
        obtain ⟨b0, alt0, src0, rest0⟩ := bas
        rw [hf] at h
        injection h with h
        simp only [Prod.mk.injEq] at h
        obtain ⟨rfl, rfl, rfl, rfl⟩ := h
        have := ih b0 alt0 src0 rest0 hf
        rw [show (c :: b0) ++ imgFull alt0 src0 ++ rest0 =
          c :: (b0 ++ imgFull alt0 src0 ++ rest0) from rfl, ← this]

/-- One line of `renderMarkdownInto`: alternate text pieces (skipping
empties, as `appendText` does) and `img` nodes carrying their exact
source. -/
def renderLineF : Nat → Str → List VNode
  | 0, _ => []
  | fuel + 1, s =>
    match findImg s with
    | none => if s = [] then [] else [VNode.txt s]
    | some (b, alt, src, rest) =>
      (if b = [] then [] else [VNode.txt b]) ++
        VNode.img (imgFull alt src) :: renderLineF fuel rest

def renderLine (s : Str) : List VNode := renderLineF (s.length + 1) s

/-- Interleave the per-line node lists with `br` separators. -/
def joinBr : List (List VNode) → List VNode
  | [] => []
  | [l] => l
  | l :: ls => l ++ VNode.br :: joinBr ls

/-- `renderMarkdownInto(container, md)`. -/
def renderMarkdownInto (md : Str) : List VNode :=
  joinBr ((splitls md).map renderLine)

/-- Per-node serialization of `serializeDomToMarkdown`: a math widget
pushes its canonical form and then, descending, the text of its rendered
markup. -/
def serializeNode : VNode → Str
  | VNode.txt s => s
  | VNode.br => ['\n']
  | VNode.img md => md
  | VNode.math l b k =>
    (if b then str "$$" ++ l ++ str "$$" else '$' :: (l ++ ['$'])) ++ k

/-- The final normalization replacing a CR or CR LF pair by LF. -/
def normCR : Str → Str
  | [] => []
  | c :: rest =>
    if c = '\r' then
      match rest with
      | '\n' :: rest2 => '\n' :: normCR rest2
      | r => '\n' :: normCR r
    else c :: normCR rest

/-- `serializeDomToMarkdown(root)` over a node list. -/
def serializeDom (ns : List VNode) : Str :=
  normCR ((ns.map serializeNode).flatten)

theorem normCR_id (s : Str) (h : '\r' ∉ s) : normCR s = s := by
  induction s with
  | nil => rfl
  | cons c cs ih =>
    have hc : c ≠ '\r' := fun he => h (he ▸ List.mem_cons_self c cs)
    have hcs : '\r' ∉ cs := fun hm => h (List.mem_cons_of_mem c hm)
    unfold normCR
    rw [if_neg hc]
    exact congrArg _ (ih hcs)

theorem renderLineF_src (fuel : Nat) :
    ∀ s : Str, s.length < fuel →
      ((renderLineF fuel s).map serializeNode).flatten = s := by
  induction fuel with
  | zero => intro s h; exact absurd h (by omega)
  | succ n ih =>
    intro s hlen
    unfold renderLineF
    cases hf : findImg s with
    | none =>
      by_cases hs : s = []
      · rw [if_pos hs, hs]; rfl
      · rw [if_neg hs]; simp [serializeNode]
    | some bas =>
      obtain ⟨b, alt, src, rest⟩ := bas
      have hsrc := findImg_eq s b alt src rest hf
      have hrest : rest.length < n := by
        rw [hsrc] at hlen
        simp only [List.length_append] at hlen
        have him : 0 < (imgFull alt src).length := by simp [imgFull]
        omega
      have ihr := ih rest hrest
      show (List.map serializeNode ((if b = [] then [] else [VNode.txt b]) ++
        VNode.img (imgFull alt src) :: renderLineF n rest)).flatten = s
      by_cases hb : b = []
      · rw [if_pos hb]
        simp only [List.nil_append, List.map_cons, List.flatten_cons, ihr]
        rw [hsrc, hb]
        simp [serializeNode]
      · rw [if_neg hb]
        simp only [List.map_append, List.map_cons, List.flatten_append,
          List.flatten_cons, ihr]
        rw [hsrc]
        simp [serializeNode]

theorem renderLine_src (s : Str) :
    ((renderLine s).map serializeNode).flatten = s :=
  renderLineF_src (s.length + 1) s (Nat.lt_succ_self _)

theorem joinBr_lines_src (lines : List Str) :
    ((joinBr (lines.map renderLine)).map serializeNode).flatten = joinNl lines := by
  induction lines with
  | nil => rfl
  | cons l ls ih =>
    cases ls with
    | nil =>
      show ((renderLine l).map serializeNode).flatten = l
      exact renderLine_src l
    | cons m ms =>
      show ((renderLine l ++ VNode.br :: joinBr ((m :: ms).map renderLine)).map
        serializeNode).flatten = l ++ '\n' :: joinNl (m :: ms)
      rw [List.map_append, List.flatten_append, renderLine_src l]
      show l ++ (['\n'] ++
        ((joinBr ((m :: ms).map renderLine)).map serializeNode).flatten) = _
      rw [ih]
      rfl

theorem renderMarkdownInto_src (md : Str) :
    ((renderMarkdownInto md).map serializeNode).flatten = md := by
  unfold renderMarkdownInto
  rw [joinBr_lines_src (splitls md)]
  exact joinNl_splitls md

/-! ## convertMathInPlace (ContentEditableEditor lines 294-380)

Two regexes: inline is a dollar not preceded by a backslash, one or more
characters that are neither dollar nor newline (lazily, so up to the
first dollar), whose last character is not a backslash, then the closing
dollar; block is the double-dollar version whose inner part may contain
newlines but no dollar.  The splitting loop repeatedly takes the earlier
of the two matches (block preferred on ties) and records plain text
between matches; each block widget is followed by an extra `br`. -/

/-- The inline math regex of `convertMathInPlace` tried at the current
position; `prev` is the character before the position (the lookbehind
inspects exactly one character). -/
def ceInlineHead (prev : Option Char) (s : Str) : Option (Str × Str) :=
  match s with
  | c :: t =>
    if c = '$' ∧ prev ≠ some '\\' then
      (splitSub (str "$") t).bind fun ir =>
        if decide (ir.1 ≠ []) && decide ('\n' ∉ ir.1) &&
            decide (ir.1.getLast? ≠ some '\\') then
          some (ir.1, ir.2)
        else none
    else none
  | _ => none

/-- The block math regex of `convertMathInPlace` tried at the current
position. -/
def ceBlockHead (prev : Option Char) (s : Str) : Option (Str × Str) :=
  match s with
  | c1 :: c2 :: t =>
    if c1 = '$' ∧ c2 = '$' ∧ prev ≠ some '\\' then
      (splitSub (str "$") t).bind fun ir =>
        match ir.2 with
        | '$' :: rest =>
          if decide (ir.1 ≠ []) && decide (ir.1.getLast? ≠ some '\\') then
            some (ir.1, rest)
          else none
        | _ => none
    else none
  | _ => none

/-- First inline match at or after the current position (regex `exec`
semantics), threading the previous character for the lookbehind. -/
def ceInlineFind (prev : Option Char) : Str → Option (Str × Str × Str)
  | [] => none
  | c :: cs =>
    match ceInlineHead prev (c :: cs) with
    | some (latex, rest) => some ([], latex, rest)
    | none =>
      match ceInlineFind (some c) cs with
      | some (b, latex, rest) => some (c :: b, latex, rest)
      | none => none

/-- First block match at or after the current position. -/
def ceBlockFind (prev : Option Char) : Str → Option (Str × Str × Str)
  | [] => none
  | c :: cs =>
    match ceBlockHead prev (c :: cs) with
    | some (latex, rest) => some ([], latex, rest)
    | none =>
      match ceBlockFind (some c) cs with
      | some (b, latex, rest) => some (c :: b, latex, rest)
      | none => none

theorem ceInlineHead_eq (prev : Option Char) (s l rest : Str)
    (h : ceInlineHead prev s = some (l, rest)) :
    s = '$' :: (l ++ '$' :: rest) ∧ l ≠ [] := by
  cases s with
  | nil => exact absurd h (by simp [ceInlineHead])
  | cons c t =>
    simp only [ceInlineHead] at h
    by_cases hc : c = '$' ∧ prev ≠ some '\\'
    · rw [if_pos hc] at h
      cases h1 : splitSub (str "$") t with
      | none => rw [h1] at h; exact absurd h (by simp)
      | some ir =>
        obtain ⟨inner, rest0⟩ := ir
        rw [h1] at h
        simp only [Option.some_bind] at h
        by_cases h2 : (decide (inner ≠ []) && decide ('\n' ∉ inner) &&
            decide (inner.getLast? ≠ some '\\')) = true
        · rw [if_pos h2] at h
          injection h with h
          simp only [Prod.mk.injEq] at h
          obtain ⟨rfl, rfl⟩ := h
          have e1 := splitSub_eq _ t inner rest0 h1
          simp only [Bool.and_eq_true, decide_eq_true_eq] at h2
          refine ⟨?_, h2.1.1⟩
          rw [hc.1, e1]
          simp [str]
        · rw [if_neg h2] at h
          exact absurd h (by simp)
    · rw [if_neg hc] at h
      exact absurd h (by simp)

theorem ceBlockHead_eq (prev : Option Char) (s l rest : Str)
    (h : ceBlockHead prev s = some (l, rest)) :
    s = '$' :: '$' :: (l ++ '$' :: '$' :: rest) ∧ l ≠ [] := by
  cases s with
  | nil => exact absurd h (by simp [ceBlockHead])
  | cons c1 s1 =>
    cases s1 with
    | nil => exact absurd h (by simp [ceBlockHead])
    | cons c2 t =>
      simp only [ceBlockHead] at h
      by_cases hc : c1 = '$' ∧ c2 = '$' ∧ prev ≠ some '\\'
      · rw [if_pos hc] at h
        cases h1 : splitSub (str "$") t with
        | none => rw [h1] at h; exact absurd h (by simp)
        | some ir =>
          obtain ⟨inner, rest0⟩ := ir
          rw [h1] at h
          simp only [Option.some_bind] at h
          split at h
          · rename_i rest1
            by_cases h2 : (decide (inner ≠ []) &&
                decide (inner.getLast? ≠ some '\\')) = true
            · rw [if_pos h2] at h
              injection h with h
              simp only [Prod.mk.injEq] at h
              obtain ⟨rfl, rfl⟩ := h
              have e1 := splitSub_eq _ t inner ('$' :: rest1) h1
              simp only [Bool.and_eq_true, decide_eq_true_eq] at h2
              refine ⟨?_, h2.1⟩
              rw [hc.1, hc.2.1, e1]
              simp [str]
            · rw [if_neg h2] at h
              exact absurd h (by simp)
          · exact absurd h (by simp)
      · rw [if_neg hc] at h
        exact absurd h (by simp)

theorem ceInlineFind_eq (s : Str) :
    ∀ prev b l rest, ceInlineFind prev s = some (b, l, rest) →
      s = b ++ '$' :: (l ++ '$' :: rest) ∧ l ≠ [] := by
  induction s with
  | nil => intro prev b l rest h; simp [ceInlineFind] at h
  | cons c cs ih =>
    intro prev b l rest h
    unfold ceInlineFind at h
    cases hm : ceInlineHead prev (c :: cs) with
    | some lr =>
      obtain ⟨l0, rest0⟩ := lr
      rw [hm] at h
      injection h with h
      simp only [Prod.mk.injEq] at h
      obtain ⟨rfl, rfl, rfl⟩ := h
      have := ceInlineHead_eq prev (c :: cs) l0 rest0 hm
      simpa using this
    | none =>
      rw [hm] at h
      cases hf : ceInlineFind (some c) cs with
      | none => rw [hf] at h; exact absurd h (by simp)
      | some blr =>
        obtain ⟨b0, l0, rest0⟩ := blr
        rw [hf] at h
        injection h with h
        simp only [Prod.mk.injEq] at h
        obtain ⟨rfl, rfl, rfl⟩ := h
        obtain ⟨he, hne⟩ := ih (some c) b0 l0 rest0 hf
        exact ⟨by rw [List.cons_append, ← he], hne⟩

theorem ceBlockFind_eq (s : Str) :
    ∀ prev b l rest, ceBlockFind prev s = some (b, l, rest) →
      s = b ++ '$' :: '$' :: (l ++ '$' :: '$' :: rest) ∧ l ≠ [] := by
  induction s with
  | nil => intro prev b l rest h; simp [ceBlockFind] at h
  | cons c cs ih =>
    intro prev b l rest h
    unfold ceBlockFind at h
    cases hm : ceBlockHead prev (c :: cs) with
    | some lr =>
      obtain ⟨l0, rest0⟩ := lr
      rw [hm] at h
      injection h with h
      simp only [Prod.mk.injEq] at h
      obtain ⟨rfl, rfl, rfl⟩ := h
      have := ceBlockHead_eq prev (c :: cs) l0 rest0 hm
      simpa using this
    | none =>
      rw [hm] at h
      cases hf : ceBlockFind (some c) cs with
      | none => rw [hf] at h; exact absurd h (by simp)
      | some blr =>
        obtain ⟨b0, l0, rest0⟩ := blr
        rw [hf] at h
        injection h with h
        simp only [Prod.mk.injEq] at h
        obtain ⟨rfl, rfl, rfl⟩ := h
        obtain ⟨he, hne⟩ := ih (some c) b0 l0 rest0 hf
        exact ⟨by rw [List.cons_append, ← he], hne⟩

/-- One segment of the `convertMathInPlace` splitting loop. -/
inductive MSeg where
  | plain (s : Str)
  | mseg (latex : Str) (block : Bool)
deriving DecidableEq, Repr

/-- The splitting loop of `convertMathInPlace`: repeatedly take the
earlier of the block and inline matches (block wins ties), recording the
plain text in between; when neither matches, the remaining text is one
plain segment.  After a match the previous character is the closing
dollar. -/
def segMathF : Nat → Option Char → Str → List MSeg
  | 0, _, _ => []
  | fuel + 1, prev, s =>
    match s with
    | [] => []
    | _ :: _ =>
      match ceBlockFind prev s, ceInlineFind prev s with
      | none, none => [MSeg.plain s]
      | some (b, l, rest), none =>
        (if b = [] then [] else [MSeg.plain b]) ++
          MSeg.mseg l true :: segMathF fuel (some '$') rest
      | none, some (b, l, rest) =>
        (if b = [] then [] else [MSeg.plain b]) ++
          MSeg.mseg l false :: segMathF fuel (some '$') rest
      | some (bb, lb, rb), some (bi, li, ri) =>
        if bb.length ≤ bi.length then
          (if bb = [] then [] else [MSeg.plain bb]) ++
            MSeg.mseg lb true :: segMathF fuel (some '$') rb
        else
          (if bi = [] then [] else [MSeg.plain bi]) ++
            MSeg.mseg li false :: segMathF fuel (some '$') ri

def segMath (s : Str) : List MSeg := segMathF (s.length + 1) none s

/-- The source text a segment was cut from. -/
def segSource : MSeg → Str
  | MSeg.plain p => p
  | MSeg.mseg l true => str "$$" ++ l ++ str "$$"
  | MSeg.mseg l false => '$' :: (l ++ ['$'])

theorem segMathF_src (fuel : Nat) :
    ∀ (prev : Option Char) (s : Str), s.length < fuel →
      ((segMathF fuel prev s).map segSource).flatten = s := by
  induction fuel with
  | zero => intro prev s h; exact absurd h (by omega)
  | succ n ih =>
    intro prev s hlen
    unfold segMathF
    cases s with
    | nil => rfl
    | cons c cs =>
      cases hbf : ceBlockFind prev (c :: cs) with
      | none =>
        cases hif : ceInlineFind prev (c :: cs) with
        | none => simp [segSource]
        | some blr =>
          obtain ⟨b, l, rest⟩ := blr
          obtain ⟨hsrc, hlne⟩ := ceInlineFind_eq (c :: cs) prev b l rest hif
          have hrest : rest.length < n := by
            rw [hsrc] at hlen
            simp only [List.length_append, List.length_cons] at hlen
            have : 0 < l.length := List.length_pos.mpr hlne
            omega
          have ihr := ih (some '$') rest hrest
          show ((((if b = [] then [] else [MSeg.plain b]) ++
            MSeg.mseg l false :: segMathF n (some '$') rest).map segSource).flatten : Str) =
            c :: cs
          by_cases hb : b = []
          · rw [if_pos hb]
            simp only [List.nil_append, List.map_cons, List.flatten_cons, ihr]
            rw [hsrc, hb]
            simp [segSource]
          · rw [if_neg hb]
            simp only [List.map_append, List.map_cons, List.flatten_append,
              List.flatten_cons, ihr]
            rw [hsrc]
            simp [segSource]
      | some blrB =>
        obtain ⟨bb, lb, rb⟩ := blrB
        obtain ⟨hsrcB, hlneB⟩ := ceBlockFind_eq (c :: cs) prev bb lb rb hbf
        have hrestB : rb.length < n := by
          rw [hsrcB] at hlen
          simp only [List.length_append, List.length_cons] at hlen
          have : 0 < lb.length := List.length_pos.mpr hlneB
          omega
        have ihrB := ih (some '$') rb hrestB
        cases hif : ceInlineFind prev (c :: cs) with
        | none =>
          show ((((if bb = [] then [] else [MSeg.plain bb]) ++
            MSeg.mseg lb true :: segMathF n (some '$') rb).map segSource).flatten : Str) =
            c :: cs
          by_cases hb : bb = []
          · rw [if_pos hb]
            simp only [List.nil_append, List.map_cons, List.flatten_cons, ihrB]
            rw [hsrcB, hb]
            simp [segSource, str]
          · rw [if_neg hb]
            simp only [List.map_append, List.map_cons, List.flatten_append,
              List.flatten_cons, ihrB]
            rw [hsrcB]
            simp [segSource, str]
        | some blrI =>
          obtain ⟨bi, li, ri⟩ := blrI
          obtain ⟨hsrcI, hlneI⟩ := ceInlineFind_eq (c :: cs) prev bi li ri hif
          have hrestI : ri.length < n := by
            rw [hsrcI] at hlen
            simp only [List.length_append, List.length_cons] at hlen
            have : 0 < li.length := List.length_pos.mpr hlneI
            omega
          have ihrI := ih (some '$') ri hrestI
          show ((List.map segSource (if bb.length ≤ bi.length then
              (if bb = [] then [] else [MSeg.plain bb]) ++
                MSeg.mseg lb true :: segMathF n (some '$') rb
            else
              (if bi = [] then [] else [MSeg.plain bi]) ++
                MSeg.mseg li false :: segMathF n (some '$') ri)).flatten : Str) =
            c :: cs
          by_cases hcmp : bb.length ≤ bi.length
          · rw [if_pos hcmp]
            by_cases hb : bb = []
            · rw [if_pos hb]
              simp only [List.nil_append, List.map_cons, List.flatten_cons, ihrB]
              rw [hsrcB, hb]
              simp [segSource, str]
            · rw [if_neg hb]
              simp only [List.map_append, List.map_cons, List.flatten_append,
                List.flatten_cons, ihrB]
              rw [hsrcB]
              simp [segSource, str]
          · rw [if_neg hcmp]
            by_cases hb : bi = []
            · rw [if_pos hb]
              simp only [List.nil_append, List.map_cons, List.flatten_cons, ihrI]
              rw [hsrcI, hb]
              simp [segSource]
            · rw [if_neg hb]
              simp only [List.map_append, List.map_cons, List.flatten_append,
                List.flatten_cons, ihrI]
              rw [hsrcI]
              simp [segSource]

/-- Node replacement for one text node in `convertMathInPlace`: plain
segments stay text, inline segments become inline widgets, block
segments become a block widget followed by an extra `br`; each widget
carries the serialization contribution `kat latex block` of its rendered
markup.  A text node with no match maps to itself (the `toProcess` guard
and the no-match segmentation agree). -/
def convertTextNode (kat : Str → Bool → Str) (s : Str) : List VNode :=
  ((segMath s).map fun seg =>
    match seg with
    | MSeg.plain p => [VNode.txt p]
    | MSeg.mseg l true => [VNode.math l true (kat l true), VNode.br]
    | MSeg.mseg l false => [VNode.math l false (kat l false)]).flatten

/-- `convertMathInPlace` applied to one node of the view. -/
def convNode (kat : Str → Bool → Str) : VNode → List VNode
  | VNode.txt s => convertTextNode kat s
  | n => [n]

/-- The rendered view of a document in the contentEditable editor:
`renderMarkdownInto` (images and line breaks) followed by
`convertMathInPlace` (math widgets), with no region being edited.
`kat latex block` is the serialization contribution of the KaTeX markup
that `katexRenderToString` produces for a widget — a fixed but
uninterpreted function of the latex source and the display mode. -/
def renderEditor (kat : Str → Bool → Str) (md : Str) : List VNode :=
  ((renderMarkdownInto md).map (convNode kat)).flatten

/-- A segment is a math segment (inline or block). -/
def segIsMath : MSeg → Bool
  | MSeg.mseg _ _ => true
  | _ => false

/-- No math segment occurs anywhere in the rendered view of the
document. -/
def noMath (md : Str) : Bool :=
  (renderMarkdownInto md).all fun n =>
    match n with
    | VNode.txt s => (segMath s).all (fun g => ! segIsMath g)
    | _ => true

theorem segs_serialize (kat : Str → Bool → Str) (segs : List MSeg)
    (h : ∀ g ∈ segs, segIsMath g = false) :
    (((segs.map fun seg =>
      match seg with
      | MSeg.plain p => [VNode.txt p]
      | MSeg.mseg l true => [VNode.math l true (kat l true), VNode.br]
      | MSeg.mseg l false => [VNode.math l false (kat l false)]).flatten).map
        serializeNode).flatten =
    ((segs.map segSource).flatten : Str) := by
  induction segs with
  | nil => rfl
  | cons g gs ih =>
    have hg := h g (List.mem_cons_self g gs)
    have hgs : ∀ x ∈ gs, segIsMath x = false :=
      fun x hx => h x (List.mem_cons_of_mem g hx)
    simp only [List.map_cons, List.flatten_cons, List.map_append,
      List.flatten_append, ih hgs]
    cases g with
    | plain p => simp [serializeNode, segSource]
    | mseg l b => exact absurd hg (by simp [segIsMath])

theorem convertTextNode_serialize (kat : Str → Bool → Str) (s : Str)
    (h : (segMath s).all (fun g => ! segIsMath g) = true) :
    ((convertTextNode kat s).map serializeNode).flatten = s := by
  unfold convertTextNode
  have hall : ∀ g ∈ segMath s, segIsMath g = false := by
    intro g hg
    have := List.all_eq_true.mp h g hg
    simpa using this
  rw [segs_serialize kat (segMath s) hall]
  exact segMathF_src (s.length + 1) none s (Nat.lt_succ_self _)

theorem flatSerialize (f : VNode → List VNode) (ns : List VNode)
    (h : ∀ n ∈ ns, ((f n).map serializeNode).flatten = serializeNode n) :
    (((ns.map f).flatten).map serializeNode).flatten =
      ((ns.map serializeNode).flatten : Str) := by
  induction ns with
  | nil => rfl
  | cons n ns2 ih =>
    have hn := h n (List.mem_cons_self n ns2)
    have hns : ∀ x ∈ ns2, ((f x).map serializeNode).flatten = serializeNode x :=
      fun x hx => h x (List.mem_cons_of_mem n hx)
    simp only [List.map_cons, List.flatten_cons, List.map_append, List.flatten_append,
      ih hns]
    rw [hn]

theorem normCR_cons_ne (c : Char) (rest : Str) (hc : c ≠ '\r') :
    normCR (c :: rest) = c :: normCR rest := by
  conv_lhs => unfold normCR
  rw [if_neg hc]

theorem normCR_append_of_no_cr (p : Str) (h : '\r' ∉ p) :
    ∀ r, normCR (p ++ r) = p ++ normCR r := by
  induction p with
  | nil => intro r; rfl
  | cons c cs ih =>
    intro r
    have hc : c ≠ '\r' := fun he => h (he ▸ List.mem_cons_self c cs)
    have hcs : '\r' ∉ cs := fun hm => h (List.mem_cons_of_mem c hm)
    rw [List.cons_append, normCR_cons_ne c (cs ++ r) hc, ih hcs r]
    rfl

theorem normCR_ne_nil (s : Str) (h : s ≠ []) : normCR s ≠ [] := by
  cases s with
  | nil => exact absurd rfl h
  | cons c rest =>
    unfold normCR
    by_cases hc : c = '\r'
    · rw [if_pos hc]
      split <;> simp
    · rw [if_neg hc]
      simp

theorem serializeDom_single (a : VNode) :
    serializeDom [a] = normCR (serializeNode a ++ []) := rfl

theorem serializeDom_pair (a b : VNode) :
    serializeDom [a, b] = normCR (serializeNode a ++ (serializeNode b ++ [])) := rfl

/-- Serialization of the rendered view of the single inline-math document
`$x$`, for any markup contribution function: the canonical form followed
by the normalized KaTeX markup text. -/
theorem renderEditor_inline_example (kat : Str → Bool → Str) :
    serializeDom (renderEditor kat (str "$x$")) =
      str "$x$" ++ normCR (kat (str "x") false) := by
  have hre : renderEditor kat (str "$x$") =
      [VNode.math (str "x") false (kat (str "x") false)] := rfl
  rw [hre, serializeDom_single]
  have hs : serializeNode (VNode.math (str "x") false (kat (str "x") false)) =
      str "$x$" ++ kat (str "x") false := rfl
  rw [hs, List.append_nil, normCR_append_of_no_cr (str "$x$") (by decide)]

/-- Serialization of the rendered view of the single block-math document
`$$x$$`, for any markup contribution function: the canonical form, the
KaTeX markup text, and the newline of the appended `br`. -/
theorem renderEditor_block_example (kat : Str → Bool → Str) :
    serializeDom (renderEditor kat (str "$$x$$")) =
      str "$$x$$" ++ normCR (kat (str "x") true ++ ['\n']) := by
  have hre : renderEditor kat (str "$$x$$") =
      [VNode.math (str "x") true (kat (str "x") true), VNode.br] := rfl
  rw [hre, serializeDom_pair]
  have hs : serializeNode (VNode.math (str "x") true (kat (str "x") true)) =
      str "$$x$$" ++ kat (str "x") true := rfl
  have hb : serializeNode VNode.br = ['\n'] := rfl
  rw [hs, hb, List.append_nil, List.append_assoc,
    normCR_append_of_no_cr (str "$$x$$") (by decide)]

/-- The block-math document `$$x$$` fails the round trip under every
possible markup contribution of its KaTeX widget: the source's actual
markup is one such contribution, so the failure is independent of what
`katexRenderToString` produces. -/
def blockRoundTripBroken : Prop :=
  ∀ kat : Str → Bool → Str,
    serializeDom (renderEditor kat (str "$$x$$")) ≠ str "$$x$$"

/-- Counterexample to C2: whatever text the KaTeX markup of the widget
contributes, serializing the rendered view of the block-math document
`$$x$$` appends at least the newline of the extra `br`, so the result
never equals the document. -/
theorem C2_counterexample : blockRoundTripBroken := by
  intro kat heq
  rw [renderEditor_block_example] at heq
  have h0 : normCR (kat (str "x") true ++ ['\n']) = [] := by
    have h1 : str "$$x$$" ++ normCR (kat (str "x") true ++ ['\n']) =
        str "$$x$$" ++ [] := by rw [heq, List.append_nil]
    exact List.append_cancel_left h1
  exact normCR_ne_nil _ (by simp) h0

/-- C2 amended: with no region being edited, serializing the rendered
view reproduces the document exactly for text, line breaks and images
(with their annotations, which stay literal text); every math region,
inline or block, breaks the round trip: the serializer pushes the
widget's canonical form and then descends into its rendered KaTeX markup
and pushes its text too, and a block widget additionally gains the
newline of its appended `br`.  The second and third conjuncts exhibit the
exact serializations of the two one-region math documents, for every
markup contribution function. -/
theorem C2_amended_roundtrip (kat : Str → Bool → Str) (md : Str)
    (hcr : '\r' ∉ md) (hnm : noMath md = true) :
    serializeDom (renderEditor kat md) = md ∧
    serializeDom (renderEditor kat (str "$x$")) =
      str "$x$" ++ normCR (kat (str "x") false) ∧
    serializeDom (renderEditor kat (str "$$x$$")) =
      str "$$x$$" ++ normCR (kat (str "x") true ++ ['\n']) := by
  refine ⟨?_, renderEditor_inline_example kat, renderEditor_block_example kat⟩
  unfold serializeDom renderEditor
  have hmain : (((renderMarkdownInto md).map (convNode kat)).flatten.map
      serializeNode).flatten
      = ((renderMarkdownInto md).map serializeNode).flatten := by
    apply flatSerialize
    intro n hn
    cases n with
    | txt s =>
      have hs := List.all_eq_true.mp hnm (VNode.txt s) hn
      simp only [] at hs
      show ((convertTextNode kat s).map serializeNode).flatten = _
      rw [convertTextNode_serialize kat s hs]
      rfl
    | br => rfl
    | img m => simp [convNode, serializeNode]
    | math l b k => simp [convNode, serializeNode]
  rw [hmain, renderMarkdownInto_src md]
  exact normCR_id md hcr

/-- Witness for the amended C2: a document with text, a line break, and
an image with a positioning annotation round-trips exactly. -/
theorem C2_witness :
    serializeDom (renderEditor (fun _ _ => []) (str "hi a\n![i](u)<!--pos:A--> b")) =
      str "hi a\n![i](u)<!--pos:A--> b" :=
  (C2_amended_roundtrip (fun _ _ => []) (str "hi a\n![i](u)<!--pos:A--> b")
    (by decide) (by decide)).1

/-! ## handleInput and onChange (C7)

`handleInput` (ContentEditableEditor lines 630-688) computes
`skipTransforms` from the math-editing ref and from whether the caret
offset lies strictly inside a region of `findMathRegions` on the active
text node; when not skipping it converts image syntax in place,
serializes the view, and calls `onChange` with the serialization — and
when skipping it calls neither.  `CMMarkdownEditor` (lines 1134-1143)
calls `onChange(text)` on every `docChanged` update. -/

/-- `regions.some(r => idx > r.start && idx < r.end)` from
handleInput. -/
def caretInsideMath (t : Str) (idx : Nat) : Bool :=
  (findMathRegions t).any fun r => decide (idx > r.start) && decide (idx < r.stop)

/-- `convertImagesInPlace`: rewrite each text node with an image match
into text/img pieces; other nodes untouched. -/
def convertImagesDom (ns : List VNode) : List VNode :=
  (ns.map fun n =>
    match n with
    | VNode.txt s => if (findImg s).isSome then renderLine s else [VNode.txt s]
    | n => [n]).flatten

/-- The `onChange` invocations performed by one `handleInput` event:
none when a raw math node is being edited or the caret is inside a math
region of the active text node; otherwise one call carrying the full
serialized document after image conversion. -/
def caretInActive : Option (Str × Nat) → Bool
  | some ti => caretInsideMath ti.1 ti.2
  | none => false

def handleInputOnChange (editingMathNode : Bool) (active : Option (Str × Nat))
    (dom : List VNode) : List Str :=
  if editingMathNode || caretInActive active then []
  else [serializeDom (convertImagesDom dom)]

/-- The `onChange` invocations of the CodeMirror update listener for one
update. -/
def cmOnChange (docChanged : Bool) (text : Str) : List Str :=
  if docChanged then [text] else []

theorem convertImagesDom_serialize (ns : List VNode) :
    serializeDom (convertImagesDom ns) = serializeDom ns := by
  unfold serializeDom convertImagesDom
  congr 1
  apply flatSerialize
  intro n _
  cases n with
  | txt s =>
    show ((if (findImg s).isSome then renderLine s else [VNode.txt s]).map
      serializeNode).flatten = _
    by_cases hf : (findImg s).isSome
    · rw [if_pos hf, renderLine_src s]; rfl
    · rw [if_neg hf]; simp [serializeNode]
  | br => rfl
  | img m => simp [serializeNode]
  | math l b k => simp [serializeNode]

/-- Counterexample to C7: an input event with the caret at offset 2 of
the active text node `$x$` — strictly inside the math region — performs
no `onChange` call at all, although a mutation just happened. -/
theorem C7_counterexample :
    caretInsideMath (str "$x$") 2 = true ∧
    handleInputOnChange false (some (str "$x$", 2)) [VNode.txt (str "$x$")] = [] := by
  constructor
  · rfl
  · rfl

/-- C7 amended: in the ContentEditable editor, `onChange` is called
synchronously with the full serialized document on every input event
except those handled while a raw math node is being edited or the caret
sits strictly inside a math region — there the call is skipped (it is
deferred until the caret leaves the math).  The payload always equals
the serialization of the full view; converting image syntax first does
not change it.  The CodeMirror editor calls `onChange` on every document
change. -/
theorem C7_amended_onchange (em : Bool) (active : Option (Str × Nat))
    (dom : List VNode) :
    (∀ v ∈ handleInputOnChange em active dom, v = serializeDom dom) ∧
    (handleInputOnChange em active dom = [] ↔
      (em = true ∨ ∃ t idx, active = some (t, idx) ∧ caretInsideMath t idx = true)) ∧
    (∀ text : Str, cmOnChange true text = [text]) := by
  refine ⟨?_, ?_, fun _ => rfl⟩
  · intro v hv
    unfold handleInputOnChange at hv
    by_cases hskip : (em || caretInActive active) = true
    · rw [if_pos hskip] at hv
      exact absurd hv (by simp)
    · rw [if_neg hskip] at hv
      rcases List.mem_singleton.mp hv with rfl
      exact convertImagesDom_serialize dom
  · unfold handleInputOnChange
    by_cases hskip : (em || caretInActive active) = true
    · rw [if_pos hskip]
      simp only [Bool.or_eq_true] at hskip
      constructor
      · intro _
        rcases hskip with he | hc
        · exact Or.inl he
        · refine Or.inr ?_
          cases active with
          | none => exact absurd hc (by simp [caretInActive])
          | some ti => exact ⟨ti.1, ti.2, rfl, hc⟩
      · intro _; rfl
    · rw [if_neg hskip]
      simp only [Bool.or_eq_true] at hskip
      push_neg at hskip
      constructor
      · intro hcontra; exact absurd hcontra (by simp)
      · intro hcases
        rcases hcases with he | ⟨t, idx, ha, hc⟩
        · exact absurd he (by simpa using hskip.1)
        · subst ha
          have : caretInActive (some (t, idx)) = caretInsideMath t idx := rfl
          refine absurd hc ?_
          rw [← this]
          simpa using hskip.2

/-- Witness for the amended C7 at a concrete non-skipping event. -/
theorem C7_witness :
    serializeDom (convertImagesDom [VNode.txt (str "a")]) =
      serializeDom [VNode.txt (str "a")] ∧
    (handleInputOnChange false none [VNode.txt (str "a")] = [] ↔
      ((false : Bool) = true ∨ ∃ t idx, (none : Option (Str × Nat)) = some (t, idx) ∧
        caretInsideMath t idx = true)) :=
  ⟨(C7_amended_onchange false none [VNode.txt (str "a")]).1
      (serializeDom (convertImagesDom [VNode.txt (str "a")])) (by decide),
   (C7_amended_onchange false none [VNode.txt (str "a")]).2.1⟩

/-! ## decorateDoc (CMMarkdownEditor, part_003 lines 35-215) (C3)

Per line, in source order: a checklist line that is rendered replaces the
whole line and skips all other parsing (`continue`); otherwise heading,
blockquote, unordered-list and ordered-list markers are hidden
unconditionally, block math then inline math widgets are added when the
caret keeps them rendered, image tokens (with their annotation comment
chains) always become widgets, and bold then italic spans are styled
when rendered. -/

/-- Length of the leading whitespace run (the greedy `\s*` / `\s+`). -/
def wsRunLen (s : Str) : Nat := (s.takeWhile (fun c => isWsChar c)).length

/-- The checklist regex `(\s*)- [( |x)](.*)$`:
`some (indent, checked, content)`. -/
def checklistMatch (t : Str) : Option (Str × Bool × Str) :=
  let ind := t.takeWhile (fun c => isWsChar c)
  match t.drop ind.length with
  | '-' :: ' ' :: '[' :: c :: ']' :: rest =>
    if c = ' ' then some (ind, false, rest)
    else if c = 'x' then some (ind, true, rest)
    else none
  | _ => none

/-- The heading regex `#(1 to 6 of them) then whitespace`: marker length
including the trailing whitespace run. -/
def headingMarker (t : Str) : Option Nat :=
  let r := (t.takeWhile (fun c => c == '#')).length
  if 1 ≤ r ∧ r ≤ 6 ∧ (match t[r]? with | some c => isWsChar c | none => false) = true then
    some (r + wsRunLen (t.drop r))
  else none

/-- The blockquote regex: `>` then whitespace. -/
def bqMarker (t : Str) : Option Nat :=
  match t with
  | '>' :: rest =>
    if (match rest.head? with | some c => isWsChar c | none => false) = true then
      some (1 + wsRunLen rest)
    else none
  | _ => none

/-- The unordered-list regex: indent, one of `-` `*` `+`, whitespace. -/
def ulMarker (t : Str) : Option Nat :=
  let ind := wsRunLen t
  match t.drop ind with
  | c :: rest =>
    if (c = '-' ∨ c = '*' ∨ c = '+') ∧
        (match rest.head? with | some w => isWsChar w | none => false) = true then
      some (ind + 1 + wsRunLen rest)
    else none
  | [] => none

/-- The ordered-list regex: indent, digits, a dot, whitespace. -/
def olMarker (t : Str) : Option Nat :=
  let ind := wsRunLen t
  let r := t.drop ind
  let d := (r.takeWhile (fun c => c.isDigit)).length
  if 1 ≤ d ∧ r[d]? = some '.' ∧
      (match r[d+1]? with | some w => isWsChar w | none => false) = true then
    some (ind + d + 1 + wsRunLen (r.drop (d+1)))
  else none

/-- One annotation comment of the given kinds, in alternation order:
`<!--` kind `:` lazy data `-->`, data free of newlines. -/
def tryKinds : List Str → Str → Option (Str × Str)
  | [], _ => none
  | k :: ks, t =>
    if (k ++ [':']).isPrefixOf t then some (k, t.drop (k.length + 1))
    else tryKinds ks t

def parseCmtK (kinds : List Str) (s : Str) : Option (Str × Str × Str) :=
  if (str "<!--").isPrefixOf s then
    match tryKinds kinds (s.drop 4) with
    | some (k, u) =>
      match splitSub (str "-->") u with
      | some (d, rest) => if '\n' ∈ d then none else some (k, d, rest)
      | none => none
    | none => none
  else none

/-- The three annotation kinds of the image scan, in alternation
order. -/
def kinds3 : List Str := [str "pos", str "inline", str "size"]

/-- The greedy star over annotation comments: the maximal parsed chain
and the remainder. -/
def parseChain (kinds : List Str) : Nat → Str → List (Str × Str) × Str
  | 0, s => ([], s)
  | fuel + 1, s =>
    match parseCmtK kinds s with
    | some (k, d, rest) =>
      let pr := parseChain kinds fuel rest
      ((k, d) :: pr.1, pr.2)
    | none => ([], s)

/-- The source text of an annotation comment. -/
def cmt (k d : Str) : Str := str "<!--" ++ k ++ ':' :: (d ++ str "-->")

/-- The source text of a chain of annotation comments. -/
def chainStr (cs : List (Str × Str)) : Str :=
  (cs.map fun kd => cmt kd.1 kd.2).flatten

/-- The image regex of `decorateDoc` at one position: an image token
followed by a greedy chain of annotation comments; returns the full
matched source and the remainder. -/
def imgCmMatchHead (s : Str) : Option (Str × Str) :=
  match imgMatchHead s with
  | some (alt, src, rest0) =>
    let pr := parseChain kinds3 (rest0.length + 1) rest0
    some (imgFull alt src ++ chainStr pr.1, pr.2)
  | none => none

/-- Global image scan of one line: `(from, to)` spans. -/
def imgScanCM : Nat → Nat → Str → List (Nat × Nat)
  | 0, _, _ => []
  | fuel + 1, p, s =>
    match s with
    | [] => []
    | c :: cs =>
      match imgCmMatchHead (c :: cs) with
      | some (full, rest) =>
        (p, p + full.length) :: imgScanCM fuel (p + full.length) rest
      | none => imgScanCM fuel (p + 1) cs

/-- The bold regex `**(lazy 1+ chars)**` at one position: the inner text
and the remainder.  The close is the first `**` at least one character
after the opener; the inner text may contain single stars but no
newline. -/
def boldHead (s : Str) : Option (Str × Str) :=
  match s with
  | '*' :: '*' :: c :: t =>
    match splitSub (str "**") t with
    | some (b, rest) => if '\n' ∈ (c :: b) then none else some (c :: b, rest)
    | none => none
  | _ => none

/-- Global bold scan of one line: `(from, to)` spans. -/
def boldScan : Nat → Nat → Str → List (Nat × Nat)
  | 0, _, _ => []
  | fuel + 1, p, s =>
    match s with
    | [] => []
    | c :: cs =>
      match boldHead (c :: cs) with
      | some (inner, rest) =>
        (p, p + inner.length + 4) :: boldScan fuel (p + inner.length + 4) rest
      | none => boldScan fuel (p + 1) cs

/-- The star-delimited part of the italic regex at one position: a star
not followed by a star, one or more characters that are neither star nor
newline (lazily), a closing star not followed by a star. -/
def italStarHead (s : Str) : Option (Str × Str) :=
  match s with
  | '*' :: t =>
    if t.head? = some '*' then none
    else
      match splitSub (str "*") t with
      | some (inner, rest) =>
        if decide (inner ≠ []) && decide ('\n' ∉ inner) &&
            decide (rest.head? ≠ some '*') then
          some (inner, rest)
        else none
      | none => none
  | _ => none

/-- Global italic scan: at the start of the text both alternatives of
`(start or not a star)` are tried; elsewhere the leading group consumes
one non-star character.  Spans cover only the starred part (the
decoration code adds the group length back to the match index). -/
def italScan : Nat → Nat → Bool → Str → List (Nat × Nat)
  | 0, _, _, _ => []
  | fuel + 1, p, atStart, s =>
    match s with
    | [] => []
    | c :: cs =>
      match (if atStart then italStarHead (c :: cs) else none) with
      | some (inner, rest) =>
        (p, p + inner.length + 2) ::
          italScan fuel (p + inner.length + 2) false rest
      | none =>
        if c ≠ '*' then
          match italStarHead cs with
          | some (inner, rest) =>
            (p + 1, p + 1 + inner.length + 2) ::
              italScan fuel (p + 1 + inner.length + 2) false rest
          | none => italScan fuel (p + 1) false cs
        else italScan fuel (p + 1) false cs

/-- The decoration kinds used by `decorateDoc`. -/
inductive DecoKind where
  | checklist
  | marker
  | bullet
  | olnum
  | mathBlock
  | mathInline
  | image
  | strongInner
  | strongMark
  | emInner
  | emMark
deriving DecidableEq, Repr

/-- One decoration: a document span and its kind (widget decorations are
zero width). -/
structure Deco where
  lo : Nat
  hi : Nat
  kind : DecoKind
deriving DecidableEq, Repr

/-- Everything `decorateDoc` emits for a line apart from the rendered
checklist shortcut. -/
def decorateRest (lineFrom : Nat) (text : Str) (selFrom : Nat) : List Deco :=
  (match headingMarker text with
   | some n => [⟨lineFrom, lineFrom + n, DecoKind.marker⟩]
   | none => []) ++
  (match bqMarker text with
   | some n => [⟨lineFrom, lineFrom + n, DecoKind.marker⟩]
   | none => []) ++
  (match ulMarker text with
   | some n => [⟨lineFrom, lineFrom, DecoKind.bullet⟩,
                ⟨lineFrom, lineFrom + n, DecoKind.marker⟩]
   | none => []) ++
  (match olMarker text with
   | some n => [⟨lineFrom, lineFrom, DecoKind.olnum⟩,
                ⟨lineFrom, lineFrom + n, DecoKind.marker⟩]
   | none => []) ++
  ((scanMath text true).map (fun pr =>
    if shouldKeepRaw (lineFrom + pr.1) (lineFrom + pr.2) selFrom none then []
    else [⟨lineFrom + pr.1, lineFrom + pr.2, DecoKind.mathBlock⟩])).flatten ++
  ((scanMath text false).map (fun pr =>
    if shouldKeepRaw (lineFrom + pr.1) (lineFrom + pr.2) selFrom none then []
    else [⟨lineFrom + pr.1, lineFrom + pr.2, DecoKind.mathInline⟩])).flatten ++
  ((imgScanCM (text.length + 1) 0 text).map fun pr =>
    (⟨lineFrom + pr.1, lineFrom + pr.2, DecoKind.image⟩ : Deco)) ++
  ((boldScan (text.length + 1) 0 text).map (fun pr =>
    if shouldKeepRaw (lineFrom + pr.1) (lineFrom + pr.2) selFrom none then []
    else if lineFrom + pr.1 + 2 < lineFrom + pr.2 - 2 then
      [⟨lineFrom + pr.1 + 2, lineFrom + pr.2 - 2, DecoKind.strongInner⟩,
       ⟨lineFrom + pr.1, lineFrom + pr.1 + 2, DecoKind.strongMark⟩,
       ⟨lineFrom + pr.2 - 2, lineFrom + pr.2, DecoKind.strongMark⟩]
    else [])).flatten ++
  ((italScan (text.length + 1) 0 true text).map (fun pr =>
    if shouldKeepRaw (lineFrom + pr.1) (lineFrom + pr.2) selFrom none then []
    else if lineFrom + pr.1 + 1 < lineFrom + pr.2 - 1 then
      [⟨lineFrom + pr.1 + 1, lineFrom + pr.2 - 1, DecoKind.emInner⟩,
       ⟨lineFrom + pr.1, lineFrom + pr.1 + 1, DecoKind.emMark⟩,
       ⟨lineFrom + pr.2 - 1, lineFrom + pr.2, DecoKind.emMark⟩]
    else [])).flatten

/-- One line of `decorateDoc`: a matched checklist line that stays
rendered replaces the whole line and skips all other parsing. -/
def decorateLine (lineFrom : Nat) (text : Str) (selFrom : Nat) : List Deco :=
  match checklistMatch text with
  | some _ =>
    if shouldKeepRaw lineFrom (lineFrom + text.length) selFrom
        (some "checklist") = false then
      [⟨lineFrom, lineFrom + text.length, DecoKind.checklist⟩]
    else decorateRest lineFrom text selFrom
  | none => decorateRest lineFrom text selFrom

/-- All decorations of a document: lines with their CodeMirror
offsets. -/
def decorateGo (selFrom : Nat) : Nat → List Str → List Deco
  | _, [] => []
  | ofs, l :: ls => decorateLine ofs l selFrom ++ decorateGo selFrom (ofs + l.length + 1) ls

def decorateDoc (doc : Str) (selFrom : Nat) : List Deco :=
  decorateGo selFrom 0 (splitls doc)

/-- Counterexample to C3: for the document `$$x$$ a` with the caret at
offset 6, the decoration pass emits both the block-math span `[0, 5)`
and the inline-math span `[1, 5)` — the inline scan skips the first
dollar of the closing `$$` but then matches its second dollar, so its
span overlaps the block span. -/
theorem C3_counterexample :
    (⟨0, 5, DecoKind.mathBlock⟩ : Deco) ∈ decorateDoc (str "$$x$$ a") 6 ∧
    (⟨1, 5, DecoKind.mathInline⟩ : Deco) ∈ decorateDoc (str "$$x$$ a") 6 ∧
    max 0 1 < min 5 5 := by
  refine ⟨?_, ?_, ?_⟩ <;> decide

/-- C3 amended: regions of one decoration pass are not always pairwise
non-overlapping — in particular an inline-math span can overlap a
block-math span at the closing `$$` of a block — but the checklist rule
does take priority over every other kind: a checklist line that stays
rendered produces exactly its own whole-line region and nothing else. -/
theorem C3_amended_checklist_priority (lineFrom : Nat) (text : Str) (selFrom : Nat)
    (m : Str × Bool × Str) (hm : checklistMatch text = some m)
    (hraw : shouldKeepRaw lineFrom (lineFrom + text.length) selFrom
      (some "checklist") = false) :
    decorateLine lineFrom text selFrom =
      [⟨lineFrom, lineFrom + text.length, DecoKind.checklist⟩] := by
  unfold decorateLine
  rw [hm]
  show (if shouldKeepRaw lineFrom (lineFrom + text.length) selFrom
      (some "checklist") = false then _ else _) = _
  rw [if_pos hraw]

/-- Witness for the amended C3: the checklist line `- [x] task` with the
caret far away renders as exactly one checklist region. -/
theorem C3_witness :
    decorateLine 0 (str "- [x] task") 100 =
      [⟨0, 0 + (str "- [x] task").length, DecoKind.checklist⟩] :=
  C3_amended_checklist_priority 0 (str "- [x] task") 100
    ([], true, str " task") (by decide) (by decide)

/-! ## Image annotation rewriting (C8)

`saveImagePositioning` (part_003 lines 281-323) builds
`![alt](src)` followed by one `pos` or `inline` comment carrying the new
JSON payload, then — if the document contains the image immediately
followed by a `pos` or `inline` comment — replaces every such match
(global regex), else replaces the first occurrence of the bare image
token.  `ImageWidget.saveImageSize` (lines 887-924) is analogous with a
`size` comment, but its existing-match regex allows a chain of zero or
more comments of all three kinds, so it always matches when the image
occurs, and the replacement drops the whole chain.  The JSON payload
(`JSON.stringify` of data including a timestamp) is a parameter of the
model. -/

/-- The two annotation kinds of the positioning regex, in alternation
order. -/
def kinds2 : List Str := [str "pos", str "inline"]

/-- Match of the positioning regex
(image token, then exactly one `pos` or `inline` comment) at one
position; returns the remainder after the match. -/
def posReHead (alt src : Str) (s : Str) : Option Str :=
  if (imgFull alt src).isPrefixOf s then
    match parseCmtK kinds2 (s.drop (imgFull alt src).length) with
    | some kdr => some kdr.2.2
    | none => none
  else none

/-- Match of the sizing regex (image token, then a greedy chain of
comments of any kind) at one position. -/
def sizeReHead (alt src : Str) (s : Str) : Option Str :=
  if (imgFull alt src).isPrefixOf s then
    some (parseChain kinds3 ((s.drop (imgFull alt src).length).length + 1)
      (s.drop (imgFull alt src).length)).2
  else none

/-- `regex.test(content)`: does the regex match at any position? -/
def reTestF (hd : Str → Option Str) : Str → Bool
  | [] => (hd []).isSome
  | c :: cs => (hd (c :: cs)).isSome || reTestF hd cs

/-- `content.replace(regex with global flag, repl)`: scan left to right,
replacing every match and resuming after it. -/
def replaceAllF (hd : Str → Option Str) (repl : Str) : Nat → Str → Str
  | 0, s => s
  | fuel + 1, s =>
    match s with
    | [] => []
    | c :: cs =>
      match hd (c :: cs) with
      | some rest => repl ++ replaceAllF hd repl fuel rest
      | none => c :: replaceAllF hd repl fuel cs

/-- `saveImagePositioning(img, src, alt, alignment, offset)` with the
serialized JSON payload as a parameter. -/
def saveImagePositioning (content alt src alignment payload : Str) : Str :=
  let tag := if alignment = str "inline" ∨ alignment = str "block"
             then str "inline" else str "pos"
  let positioned := imgFull alt src ++ cmt tag payload
  if reTestF (posReHead alt src) content then
    replaceAllF (posReHead alt src) positioned (content.length + 1) content
  else
    replaceFirst content (imgFull alt src) positioned

/-- `ImageWidget.saveImageSize(img, width, height)` with the serialized
JSON payload as a parameter. -/
def saveImageSize (content alt src payload : Str) : Str :=
  let sized := imgFull alt src ++ cmt (str "size") payload
  if reTestF (sizeReHead alt src) content then
    replaceAllF (sizeReHead alt src) sized (content.length + 1) content
  else
    replaceFirst content (imgFull alt src) sized

/-- The chain of annotation comments attached to the first occurrence of
the image token in the document. -/
def attachedCmts (content alt src : Str) : List (Str × Str) :=
  match splitSub (imgFull alt src) content with
  | some bq => (parseChain kinds3 (bq.2.length + 1) bq.2).1
  | none => []

/-- How many comments of the given kind are attached to the image. -/
def countKind (content alt src kind : Str) : Nat :=
  ((attachedCmts content alt src).filter (fun kd => kd.1 == kind)).length

/-- A wellformed comment payload: it contains no comment terminator (the
lazy body stops exactly at the appended terminator) and no newline. -/
def dataOk (d : Str) : Prop :=
  splitSub (str "-->") (d ++ str "-->") = some (d, []) ∧ '\n' ∉ d

instance (d : Str) : Decidable (dataOk d) :=
  inferInstanceAs
    (Decidable (splitSub (str "-->") (d ++ str "-->") = some (d, []) ∧ '\n' ∉ d))

/-- `nd` occurs as a substring (at any position). -/
def occursIn (nd : Str) : Str → Bool
  | [] => nd.isPrefixOf []
  | c :: cs => nd.isPrefixOf (c :: cs) || occursIn nd cs

theorem isPrefixOf_append_left (p : Str) : ∀ r, p.isPrefixOf (p ++ r) = true := by
  induction p with
  | nil => intro r; cases r <;> rfl
  | cons a as ih =>
    intro r
    show (a == a && as.isPrefixOf (as ++ r)) = true
    rw [ih r]
    simp

theorem isPrefixOf_stable (nd : Str) :
    ∀ (u r : Str), nd.length ≤ u.length →
      nd.isPrefixOf (u ++ r) = nd.isPrefixOf u := by
  induction nd with
  | nil => intro u r _; cases u <;> cases r <;> rfl
  | cons a as ih =>
    intro u r hlen
    cases u with
    | nil => exact absurd hlen (by simp)
    | cons b bs =>
      show (a == b && as.isPrefixOf (bs ++ r)) = (a == b && as.isPrefixOf bs)
      rw [ih bs r (by simpa using hlen)]

theorem splitSub_cons (nd : Str) (c : Char) (cs : Str) :
    splitSub nd (c :: cs) =
      if nd.isPrefixOf (c :: cs) then some ([], (c :: cs).drop nd.length)
      else
        match splitSub nd cs with
        | some (p, q) => some (c :: p, q)
        | none => none := rfl

theorem splitSub_extend (nd d : Str)
    (h : splitSub nd (d ++ nd) = some (d, [])) :
    ∀ r, splitSub nd (d ++ nd ++ r) = some (d, r) := by
  induction d with
  | nil =>
    intro r
    cases nd with
    | nil => simp [splitSub] at h
    | cons n0 nd1 =>
      show splitSub (n0 :: nd1) (n0 :: (nd1 ++ r)) = some ([], r)
      rw [splitSub_cons]
      have hpre : (n0 :: nd1).isPrefixOf (n0 :: (nd1 ++ r)) = true := by
        have := isPrefixOf_append_left (n0 :: nd1) r
        simpa using this
      rw [if_pos hpre]
      have hdrop : (n0 :: (nd1 ++ r)).drop (n0 :: nd1).length = r := by
        show (nd1 ++ r).drop nd1.length = r
        exact List.drop_left nd1 r
      rw [hdrop]
  | cons c d1 ih =>
    intro r
    have hne : nd ≠ [] := by
      intro hcontra
      rw [hcontra] at h
      rw [show ((c :: d1) ++ ([] : Str) : Str) = c :: d1 by simp] at h
      rw [splitSub_cons] at h
      rw [if_pos (by cases d1 <;> rfl)] at h
      injection h with h
      simp only [Prod.mk.injEq] at h
      exact absurd h.1.symm (by simp)
    rw [show ((c :: d1) ++ nd : Str) = c :: (d1 ++ nd) from rfl, splitSub_cons] at h
    by_cases hp : nd.isPrefixOf (c :: (d1 ++ nd)) = true
    · rw [if_pos hp] at h
      injection h with h
      simp only [Prod.mk.injEq] at h
      exact absurd h.1.symm (by simp)
    · rw [if_neg hp] at h
      show splitSub nd (c :: (d1 ++ nd ++ r)) = some (c :: d1, r)
      rw [splitSub_cons]
      have hp2 : ¬ nd.isPrefixOf (c :: (d1 ++ nd ++ r)) = true := by
        have hst : nd.isPrefixOf ((c :: (d1 ++ nd)) ++ r) =
            nd.isPrefixOf (c :: (d1 ++ nd)) := by
          apply isPrefixOf_stable
          have : 0 < nd.length := List.length_pos.mpr hne
          simp only [List.length_cons, List.length_append]
          omega
        rw [show (c :: (d1 ++ nd ++ r) : Str) = (c :: (d1 ++ nd)) ++ r by simp]
        rw [hst]
        exact hp
      rw [if_neg hp2]
      cases hin : splitSub nd (d1 ++ nd) with
      | none => rw [hin] at h; exact absurd h (by simp)
      | some pq2 =>
        obtain ⟨p1, q1⟩ := pq2
        rw [hin] at h
        injection h with h
        simp only [Prod.mk.injEq, List.cons.injEq] at h
        obtain ⟨⟨_, hp1⟩, h2⟩ := h
        rw [hp1, h2] at hin
        rw [ih hin r]

theorem isPrefixOf_cons_ne (a b : Char) (as bs : Str) (h : (a == b) = false) :
    (a :: as).isPrefixOf (b :: bs) = false := by
  show (a == b && as.isPrefixOf bs) = false
  rw [h]
  rfl

theorem tryKinds2_pos (W : Str) :
    tryKinds kinds2 ('p' :: 'o' :: 's' :: ':' :: W) = some (str "pos", W) := by
  have h : List.isPrefixOf (str "pos" ++ [':']) ('p' :: 'o' :: 's' :: ':' :: W) = true :=
    isPrefixOf_append_left (str "pos" ++ [':']) W
  simp only [kinds2, tryKinds]
  rw [if_pos h]
  rfl

theorem tryKinds2_inline (W : Str) :
    tryKinds kinds2 ('i' :: 'n' :: 'l' :: 'i' :: 'n' :: 'e' :: ':' :: W) =
      some (str "inline", W) := by
  have h1 : List.isPrefixOf (str "pos" ++ [':'])
      ('i' :: 'n' :: 'l' :: 'i' :: 'n' :: 'e' :: ':' :: W) = false :=
    isPrefixOf_cons_ne 'p' 'i' ('o' :: 's' :: [':'])
      ('n' :: 'l' :: 'i' :: 'n' :: 'e' :: ':' :: W) (by decide)
  have h2 : List.isPrefixOf (str "inline" ++ [':'])
      ('i' :: 'n' :: 'l' :: 'i' :: 'n' :: 'e' :: ':' :: W) = true :=
    isPrefixOf_append_left (str "inline" ++ [':']) W
  simp only [kinds2, tryKinds]
  rw [h1, if_neg Bool.false_ne_true, if_pos h2]
  rfl

theorem tryKinds2_size (W : Str) :
    tryKinds kinds2 ('s' :: 'i' :: 'z' :: 'e' :: ':' :: W) = none := by
  have h1 : List.isPrefixOf (str "pos" ++ [':'])
      ('s' :: 'i' :: 'z' :: 'e' :: ':' :: W) = false :=
    isPrefixOf_cons_ne 'p' 's' ('o' :: 's' :: [':'])
      ('i' :: 'z' :: 'e' :: ':' :: W) (by decide)
  have h2 : List.isPrefixOf (str "inline" ++ [':'])
      ('s' :: 'i' :: 'z' :: 'e' :: ':' :: W) = false :=
    isPrefixOf_cons_ne 'i' 's' ('n' :: 'l' :: 'i' :: 'n' :: 'e' :: [':'])
      ('i' :: 'z' :: 'e' :: ':' :: W) (by decide)
  simp only [kinds2, tryKinds]
  rw [h1, if_neg Bool.false_ne_true, h2, if_neg Bool.false_ne_true]

theorem tryKinds3_pos (W : Str) :
    tryKinds kinds3 ('p' :: 'o' :: 's' :: ':' :: W) = some (str "pos", W) := by
  have h : List.isPrefixOf (str "pos" ++ [':']) ('p' :: 'o' :: 's' :: ':' :: W) = true :=
    isPrefixOf_append_left (str "pos" ++ [':']) W
  simp only [kinds3, tryKinds]
  rw [if_pos h]
  rfl

theorem tryKinds3_inline (W : Str) :
    tryKinds kinds3 ('i' :: 'n' :: 'l' :: 'i' :: 'n' :: 'e' :: ':' :: W) =
      some (str "inline", W) := by
  have h1 : List.isPrefixOf (str "pos" ++ [':'])
      ('i' :: 'n' :: 'l' :: 'i' :: 'n' :: 'e' :: ':' :: W) = false :=
    isPrefixOf_cons_ne 'p' 'i' ('o' :: 's' :: [':'])
      ('n' :: 'l' :: 'i' :: 'n' :: 'e' :: ':' :: W) (by decide)
  have h2 : List.isPrefixOf (str "inline" ++ [':'])
      ('i' :: 'n' :: 'l' :: 'i' :: 'n' :: 'e' :: ':' :: W) = true :=
    isPrefixOf_append_left (str "inline" ++ [':']) W
  simp only [kinds3, tryKinds]
  rw [h1, if_neg Bool.false_ne_true, if_pos h2]
  rfl

theorem tryKinds3_size (W : Str) :
    tryKinds kinds3 ('s' :: 'i' :: 'z' :: 'e' :: ':' :: W) = some (str "size", W) := by
  have h1 : List.isPrefixOf (str "pos" ++ [':'])
      ('s' :: 'i' :: 'z' :: 'e' :: ':' :: W) = false :=
    isPrefixOf_cons_ne 'p' 's' ('o' :: 's' :: [':'])
      ('i' :: 'z' :: 'e' :: ':' :: W) (by decide)
  have h2 : List.isPrefixOf (str "inline" ++ [':'])
      ('s' :: 'i' :: 'z' :: 'e' :: ':' :: W) = false :=
    isPrefixOf_cons_ne 'i' 's' ('n' :: 'l' :: 'i' :: 'n' :: 'e' :: [':'])
      ('i' :: 'z' :: 'e' :: ':' :: W) (by decide)
  have h3 : List.isPrefixOf (str "size" ++ [':'])
      ('s' :: 'i' :: 'z' :: 'e' :: ':' :: W) = true :=
    isPrefixOf_append_left (str "size" ++ [':']) W
  simp only [kinds3, tryKinds]
  rw [h1, if_neg Bool.false_ne_true, h2, if_neg Bool.false_ne_true, if_pos h3]
  rfl

/-- A kind handled by the image-scan alternation. -/
def kindOk3 (k : Str) : Prop := k = str "pos" ∨ k = str "inline" ∨ k = str "size"

theorem parseCmtK_build (kinds : List Str) (k d rest : Str) (hd : dataOk d)
    (htk : tryKinds kinds (k ++ ':' :: (d ++ (str "-->" ++ rest))) =
      some (k, d ++ (str "-->" ++ rest))) :
    parseCmtK kinds (cmt k d ++ rest) = some (k, d, rest) := by
  have hnorm : cmt k d ++ rest =
      str "<!--" ++ (k ++ ':' :: (d ++ (str "-->" ++ rest))) := by
    simp [cmt, str]
  rw [hnorm]
  unfold parseCmtK
  rw [if_pos (isPrefixOf_append_left (str "<!--") _)]
  rw [show (str "<!--" ++ (k ++ ':' :: (d ++ (str "-->" ++ rest)))).drop 4 =
    k ++ ':' :: (d ++ (str "-->" ++ rest)) from List.drop_left (str "<!--") _]
  rw [htk]
  have hsplit : splitSub (str "-->") (d ++ (str "-->" ++ rest)) = some (d, rest) := by
    rw [← List.append_assoc]
    exact splitSub_extend (str "-->") d hd.1 rest
  show (match splitSub (str "-->") (d ++ (str "-->" ++ rest)) with
    | some (d2, rest2) => if '\n' ∈ d2 then none else some (k, d2, rest2)
    | none => none) = some (k, d, rest)
  rw [hsplit]
  show (if '\n' ∈ d then none else some (k, d, rest)) = some (k, d, rest)
  rw [if_neg hd.2]

theorem parseCmtK2_pos (d rest : Str) (hd : dataOk d) :
    parseCmtK kinds2 (cmt (str "pos") d ++ rest) = some (str "pos", d, rest) :=
  parseCmtK_build kinds2 (str "pos") d rest hd (tryKinds2_pos _)

theorem parseCmtK2_inline (d rest : Str) (hd : dataOk d) :
    parseCmtK kinds2 (cmt (str "inline") d ++ rest) = some (str "inline", d, rest) :=
  parseCmtK_build kinds2 (str "inline") d rest hd (tryKinds2_inline _)

theorem parseCmtK2_size (d rest : Str) :
    parseCmtK kinds2 (cmt (str "size") d ++ rest) = none := by
  have hnorm : cmt (str "size") d ++ rest =
      str "<!--" ++ ('s' :: 'i' :: 'z' :: 'e' :: ':' :: (d ++ (str "-->" ++ rest))) := by
    simp [cmt, str]
  rw [hnorm]
  unfold parseCmtK
  rw [if_pos (isPrefixOf_append_left (str "<!--") _)]
  rw [show (str "<!--" ++ ('s' :: 'i' :: 'z' :: 'e' :: ':' ::
    (d ++ (str "-->" ++ rest)))).drop 4 =
    's' :: 'i' :: 'z' :: 'e' :: ':' :: (d ++ (str "-->" ++ rest)) from
    List.drop_left (str "<!--") _]
  rw [tryKinds2_size]

theorem parseCmtK3_of (k d rest : Str) (hk : kindOk3 k) (hd : dataOk d) :
    parseCmtK kinds3 (cmt k d ++ rest) = some (k, d, rest) := by
  rcases hk with rfl | rfl | rfl
  · exact parseCmtK_build kinds3 (str "pos") d rest hd (tryKinds3_pos _)
  · exact parseCmtK_build kinds3 (str "inline") d rest hd (tryKinds3_inline _)
  · exact parseCmtK_build kinds3 (str "size") d rest hd (tryKinds3_size _)

theorem cmt_length_pos (k d : Str) : 0 < (cmt k d).length := by
  simp [cmt, str]

theorem parseChain_exact (cs : List (Str × Str)) :
    ∀ fuel post, (∀ kd ∈ cs, kindOk3 kd.1 ∧ dataOk kd.2) →
      parseCmtK kinds3 post = none →
      (chainStr cs ++ post).length < fuel →
      parseChain kinds3 fuel (chainStr cs ++ post) = (cs, post) := by
  induction cs with
  | nil =>
    intro fuel post _ hpost hlen
    cases fuel with
    | zero => exact absurd hlen (by omega)
    | succ n =>
      show parseChain kinds3 (n + 1) (([] : Str) ++ post) = ([], post)
      rw [List.nil_append]
      unfold parseChain
      rw [hpost]
  | cons kd cs2 ih =>
    intro fuel post hok hpost hlen
    obtain ⟨k, d⟩ := kd
    have hchain : chainStr ((k, d) :: cs2) ++ post =
        cmt k d ++ (chainStr cs2 ++ post) := by
      simp [chainStr]
    rw [hchain] at hlen ⊢
    cases fuel with
    | zero => exact absurd hlen (by omega)
    | succ n =>
      unfold parseChain
      have hk := hok (k, d) (List.mem_cons_self _ _)
      rw [parseCmtK3_of k d (chainStr cs2 ++ post) hk.1 hk.2]
      have hrec : parseChain kinds3 n (chainStr cs2 ++ post) = (cs2, post) := by
        apply ih n post (fun x hx => hok x (List.mem_cons_of_mem _ hx)) hpost
        have := cmt_length_pos k d
        simp only [List.length_append] at hlen ⊢
        omega
      show ((k, d) :: (parseChain kinds3 n (chainStr cs2 ++ post)).1,
        (parseChain kinds3 n (chainStr cs2 ++ post)).2) = ((k, d) :: cs2, post)
      rw [hrec]

/-- The image token without its leading bang. -/
def tailImg (alt src : Str) : Str := '[' :: (alt ++ ']' :: '(' :: (src ++ [')']))

theorem imgFull_cons (alt src : Str) : imgFull alt src = '!' :: tailImg alt src := rfl

theorem reTestF_cons (hd : Str → Option Str) (c : Char) (cs : Str) :
    reTestF hd (c :: cs) = ((hd (c :: cs)).isSome || reTestF hd cs) := rfl

theorem occursIn_prefix_head (nd : Str) (c : Char) (cs : Str)
    (h : occursIn nd (c :: cs) = false) :
    nd.isPrefixOf (c :: cs) = false ∧ occursIn nd cs = false := by
  have h2 : (nd.isPrefixOf (c :: cs) || occursIn nd cs) = false := h
  exact Bool.or_eq_false_iff.mp h2

theorem reTestF_nomatch (hd : Str → Option Str) (pre : Str)
    (hprop : ∀ s, (hd s).isSome = true → pre.isPrefixOf s = true) :
    ∀ u, occursIn pre u = false → reTestF hd u = false := by
  intro u
  induction u with
  | nil =>
    intro h
    show (hd []).isSome = false
    cases hs : (hd []).isSome with
    | false => rfl
    | true =>
      have hpre := hprop [] hs
      have hocc : pre.isPrefixOf [] = false := h
      rw [hpre] at hocc
      exact absurd hocc (by simp)
  | cons c cs ih =>
    intro h
    obtain ⟨h1, h2⟩ := occursIn_prefix_head pre c cs h
    rw [reTestF_cons]
    cases hs : (hd (c :: cs)).isSome with
    | false => rw [ih h2]; rfl
    | true =>
      have hpre := hprop _ hs
      rw [hpre] at h1
      exact absurd h1 (by simp)

theorem replaceAllF_nomatch (hd : Str → Option Str) (pre repl : Str)
    (hprop : ∀ s, (hd s).isSome = true → pre.isPrefixOf s = true) :
    ∀ fuel u, occursIn pre u = false → replaceAllF hd repl fuel u = u := by
  intro fuel
  induction fuel with
  | zero => intro u _; rfl
  | succ n ih =>
    intro u h
    cases u with
    | nil => rfl
    | cons c cs =>
      obtain ⟨h1, h2⟩ := occursIn_prefix_head pre c cs h
      show (match hd (c :: cs) with
        | some rest => repl ++ replaceAllF hd repl n rest
        | none => c :: replaceAllF hd repl n cs) = c :: cs
      cases hs : hd (c :: cs) with
      | some rest =>
        have hpre := hprop (c :: cs) (by rw [hs]; rfl)
        rw [hpre] at h1
        exact absurd h1 (by simp)
      | none =>
        show c :: replaceAllF hd repl n cs = c :: cs
        rw [ih cs h2]

theorem replaceAllF_nil (hd : Str → Option Str) (repl : Str) :
    ∀ fuel, replaceAllF hd repl fuel [] = [] := by
  intro fuel
  cases fuel <;> rfl

theorem reTestF_of_head_ne (hd : Str → Option Str) (u : Str)
    (hu : (hd u).isSome = true) (hne : u ≠ []) : reTestF hd u = true := by
  cases u with
  | nil => exact absurd rfl hne
  | cons c cs =>
    rw [reTestF_cons, hu]
    rfl

theorem replaceAllF_head_ne (hd : Str → Option Str) (repl : Str) (fuel : Nat)
    (u rest : Str) (h : hd u = some rest) (hne : u ≠ []) :
    replaceAllF hd repl (fuel + 1) u = repl ++ replaceAllF hd repl fuel rest := by
  cases u with
  | nil => exact absurd rfl hne
  | cons c cs =>
    show (match hd (c :: cs) with
      | some r => repl ++ replaceAllF hd repl fuel r
      | none => c :: replaceAllF hd repl fuel cs) = repl ++ replaceAllF hd repl fuel rest
    rw [h]

theorem posReHead_isSome_starts (alt src : Str) :
    ∀ s, (posReHead alt src s).isSome = true → (imgFull alt src).isPrefixOf s = true := by
  intro s h
  by_cases hp : (imgFull alt src).isPrefixOf s = true
  · exact hp
  · unfold posReHead at h
    rw [if_neg hp] at h
    exact absurd h (by simp)

theorem sizeReHead_isSome_starts (alt src : Str) :
    ∀ s, (sizeReHead alt src s).isSome = true → (imgFull alt src).isPrefixOf s = true := by
  intro s h
  by_cases hp : (imgFull alt src).isPrefixOf s = true
  · exact hp
  · unfold sizeReHead at h
    rw [if_neg hp] at h
    exact absurd h (by simp)

theorem posReHead_at (alt src X : Str) :
    posReHead alt src (imgFull alt src ++ X) =
      (match parseCmtK kinds2 X with
       | some kdr => some kdr.2.2
       | none => none) := by
  unfold posReHead
  rw [if_pos (isPrefixOf_append_left (imgFull alt src) X), List.drop_left]

theorem sizeReHead_at (alt src X : Str) :
    sizeReHead alt src (imgFull alt src ++ X) =
      some (parseChain kinds3 (X.length + 1) X).2 := by
  unfold sizeReHead
  rw [if_pos (isPrefixOf_append_left (imgFull alt src) X), List.drop_left]

theorem replaceFirst_at_head (nd x r : Str) (hne : nd ≠ []) :
    replaceFirst (nd ++ x) nd r = r ++ x := by
  cases nd with
  | nil => exact absurd rfl hne
  | cons a as =>
    rw [List.cons_append]
    show (if (a :: as).isPrefixOf (a :: (as ++ x)) then
        r ++ (a :: (as ++ x)).drop (a :: as).length
      else a :: replaceFirst (as ++ x) (a :: as) r) = r ++ x
    have hp : (a :: as).isPrefixOf (a :: (as ++ x)) = true :=
      isPrefixOf_append_left (a :: as) x
    rw [if_pos hp, List.length_cons, List.drop_succ_cons, List.drop_left]

theorem saveImagePositioning_eq (content alt src alignment payload : Str) :
    saveImagePositioning content alt src alignment payload =
      (if reTestF (posReHead alt src) content then
        replaceAllF (posReHead alt src)
          (imgFull alt src ++ cmt (if alignment = str "inline" ∨ alignment = str "block"
            then str "inline" else str "pos") payload)
          (content.length + 1) content
      else
        replaceFirst content (imgFull alt src)
          (imgFull alt src ++ cmt (if alignment = str "inline" ∨ alignment = str "block"
            then str "inline" else str "pos") payload)) := rfl

theorem saveImageSize_eq (content alt src payload : Str) :
    saveImageSize content alt src payload =
      (if reTestF (sizeReHead alt src) content then
        replaceAllF (sizeReHead alt src) (imgFull alt src ++ cmt (str "size") payload)
          (content.length + 1) content
      else
        replaceFirst content (imgFull alt src)
          (imgFull alt src ++ cmt (str "size") payload)) := rfl

/-- C8: counterexample.  On a document whose annotation chain was written
in the order `size` before `pos` (e.g. hand-edited), the positioning
regex — which requires the `pos`/`inline` comment immediately after the
image token — fails to match, so `saveImagePositioning` falls through to
the prepend branch and a second `pos` comment accumulates: the count of
attached `pos` comments goes from 1 to 2. -/
theorem C8_counterexample :
    countKind (str "![a](s)<!--size:S--><!--pos:P-->") (str "a") (str "s")
        (str "pos") = 1 ∧
      countKind (saveImagePositioning (str "![a](s)<!--size:S--><!--pos:P-->")
          (str "a") (str "s") (str "left") (str "N"))
        (str "a") (str "s") (str "pos") = 2 := by
  constructor
  · rfl
  · rfl

/-- C8 (amended): for annotation chains in the canonical order the code
itself writes (`pos`/`inline` comment directly after the image token,
`size` comment after it), every widget interaction rewrites the image
span with alt and src preserved and the annotation replaced rather than
appended.  Conjuncts: (1) alignment set (non-inline) on a full chain
replaces the `pos` payload and keeps the `size` comment; (2) alignment
set on a bare image appends the single new `pos` comment; (3) alignment
set on an image with only a `size` comment prepends the `pos` comment
before it, keeping it unique; (4) a horizontal drag end (alignment
`inline`) replaces the `inline` payload; (5) and (6) a resize end
rewrites the whole chain to the single new `size` comment.  The occursIn
hypotheses say the image token occurs nowhere except its own position;
the dataOk hypotheses say payloads contain no terminator and no
newline. -/
theorem C8_amended_annotations (alt src P Q R align : Str)
    (hP : dataOk P) (hQ : dataOk Q)
    (halign : ¬(align = str "inline" ∨ align = str "block"))
    (h1 : occursIn (imgFull alt src) (cmt (str "size") Q) = false)
    (h2 : occursIn (imgFull alt src) (tailImg alt src) = false)
    (h3 : occursIn (imgFull alt src) (tailImg alt src ++ cmt (str "size") Q) = false) :
    (saveImagePositioning
        (imgFull alt src ++ cmt (str "pos") P ++ cmt (str "size") Q)
        alt src align R =
      imgFull alt src ++ cmt (str "pos") R ++ cmt (str "size") Q) ∧
    (saveImagePositioning (imgFull alt src) alt src align R =
      imgFull alt src ++ cmt (str "pos") R) ∧
    (saveImagePositioning (imgFull alt src ++ cmt (str "size") Q) alt src align R =
      imgFull alt src ++ cmt (str "pos") R ++ cmt (str "size") Q) ∧
    (saveImagePositioning
        (imgFull alt src ++ cmt (str "inline") P ++ cmt (str "size") Q)
        alt src (str "inline") R =
      imgFull alt src ++ cmt (str "inline") R ++ cmt (str "size") Q) ∧
    (saveImageSize (imgFull alt src ++ cmt (str "pos") P ++ cmt (str "size") Q)
        alt src R =
      imgFull alt src ++ cmt (str "size") R) ∧
    (saveImageSize (imgFull alt src) alt src R =
      imgFull alt src ++ cmt (str "size") R) := by
  refine ⟨?_, ?_, ?_, ?_, ?_, ?_⟩
  · rw [saveImagePositioning_eq, if_neg halign]
    have hassoc : imgFull alt src ++ cmt (str "pos") P ++ cmt (str "size") Q =
        imgFull alt src ++ (cmt (str "pos") P ++ cmt (str "size") Q) :=
      List.append_assoc _ _ _
    rw [hassoc]
    have hhead : posReHead alt src
        (imgFull alt src ++ (cmt (str "pos") P ++ cmt (str "size") Q)) =
        some (cmt (str "size") Q) := by
      rw [posReHead_at, parseCmtK2_pos P (cmt (str "size") Q) hP]
    have htest : reTestF (posReHead alt src)
        (imgFull alt src ++ (cmt (str "pos") P ++ cmt (str "size") Q)) = true :=
      reTestF_of_head_ne _ _ (by rw [hhead]; rfl) (by simp [imgFull])
    rw [if_pos htest]
    rw [replaceAllF_head_ne _ _ _ _ _ hhead (by simp [imgFull])]
    rw [replaceAllF_nomatch (posReHead alt src) (imgFull alt src) _
      (posReHead_isSome_starts alt src) _ _ h1]
  · rw [saveImagePositioning_eq, if_neg halign]
    have hheadA : posReHead alt src (imgFull alt src) = none := by
      have h0 := posReHead_at alt src []
      rw [List.append_nil] at h0
      exact h0
    have htest : reTestF (posReHead alt src) (imgFull alt src) = false := by
      rw [imgFull_cons, reTestF_cons]
      have hh : posReHead alt src ('!' :: tailImg alt src) = none := hheadA
      rw [hh, reTestF_nomatch (posReHead alt src) (imgFull alt src)
        (posReHead_isSome_starts alt src) (tailImg alt src) h2]
      rfl
    rw [htest, if_neg Bool.false_ne_true]
    have hrf := replaceFirst_at_head (imgFull alt src) []
      (imgFull alt src ++ cmt (str "pos") R) (by simp [imgFull])
    simp only [List.append_nil] at hrf
    exact hrf
  · rw [saveImagePositioning_eq, if_neg halign]
    have hhead : posReHead alt src (imgFull alt src ++ cmt (str "size") Q) = none := by
      rw [posReHead_at]
      have hz := parseCmtK2_size Q []
      rw [List.append_nil] at hz
      rw [hz]
    have htest : reTestF (posReHead alt src)
        (imgFull alt src ++ cmt (str "size") Q) = false := by
      rw [imgFull_cons, List.cons_append, reTestF_cons]
      have hh : posReHead alt src
          ('!' :: (tailImg alt src ++ cmt (str "size") Q)) = none := hhead
      rw [hh, reTestF_nomatch (posReHead alt src) (imgFull alt src)
        (posReHead_isSome_starts alt src) (tailImg alt src ++ cmt (str "size") Q) h3]
      rfl
    rw [htest, if_neg Bool.false_ne_true]
    exact replaceFirst_at_head (imgFull alt src) (cmt (str "size") Q) _
      (by simp [imgFull])
  · rw [saveImagePositioning_eq, if_pos (Or.inl rfl)]
    have hassoc : imgFull alt src ++ cmt (str "inline") P ++ cmt (str "size") Q =
        imgFull alt src ++ (cmt (str "inline") P ++ cmt (str "size") Q) :=
      List.append_assoc _ _ _
    rw [hassoc]
    have hhead : posReHead alt src
        (imgFull alt src ++ (cmt (str "inline") P ++ cmt (str "size") Q)) =
        some (cmt (str "size") Q) := by
      rw [posReHead_at, parseCmtK2_inline P (cmt (str "size") Q) hP]
    have htest : reTestF (posReHead alt src)
        (imgFull alt src ++ (cmt (str "inline") P ++ cmt (str "size") Q)) = true :=
      reTestF_of_head_ne _ _ (by rw [hhead]; rfl) (by simp [imgFull])
    rw [if_pos htest]
    rw [replaceAllF_head_ne _ _ _ _ _ hhead (by simp [imgFull])]
    rw [replaceAllF_nomatch (posReHead alt src) (imgFull alt src) _
      (posReHead_isSome_starts alt src) _ _ h1]
  · rw [saveImageSize_eq]
    have hassoc : imgFull alt src ++ cmt (str "pos") P ++ cmt (str "size") Q =
        imgFull alt src ++ (cmt (str "pos") P ++ cmt (str "size") Q) :=
      List.append_assoc _ _ _
    rw [hassoc]
    have hhead : sizeReHead alt src
        (imgFull alt src ++ (cmt (str "pos") P ++ cmt (str "size") Q)) =
        some [] := by
      rw [sizeReHead_at]
      have hok : ∀ kd ∈ [(str "pos", P), (str "size", Q)],
          kindOk3 kd.1 ∧ dataOk kd.2 := by
        intro kd hkd
        simp only [List.mem_cons, List.not_mem_nil, or_false] at hkd
        rcases hkd with rfl | rfl
        · exact ⟨Or.inl rfl, hP⟩
        · exact ⟨Or.inr (Or.inr rfl), hQ⟩
      have hcs : chainStr [(str "pos", P), (str "size", Q)] ++ ([] : Str) =
          cmt (str "pos") P ++ cmt (str "size") Q := by
        simp [chainStr]
      have hlen : (chainStr [(str "pos", P), (str "size", Q)] ++ ([] : Str)).length <
          (cmt (str "pos") P ++ cmt (str "size") Q).length + 1 := by
        rw [hcs]
        omega
      have hpc := parseChain_exact [(str "pos", P), (str "size", Q)]
        ((cmt (str "pos") P ++ cmt (str "size") Q).length + 1) [] hok rfl hlen
      rw [hcs] at hpc
      rw [hpc]
    have htest : reTestF (sizeReHead alt src)
        (imgFull alt src ++ (cmt (str "pos") P ++ cmt (str "size") Q)) = true :=
      reTestF_of_head_ne _ _ (by rw [hhead]; rfl) (by simp [imgFull])
    rw [if_pos htest]
    rw [replaceAllF_head_ne _ _ _ _ _ hhead (by simp [imgFull])]
    rw [replaceAllF_nil, List.append_nil]
  · rw [saveImageSize_eq]
    have hhead : sizeReHead alt src (imgFull alt src) = some [] := by
      have h0 := sizeReHead_at alt src []
      rw [List.append_nil] at h0
      exact h0
    have htest : reTestF (sizeReHead alt src) (imgFull alt src) = true :=
      reTestF_of_head_ne _ _ (by rw [hhead]; rfl) (by simp [imgFull])
    rw [if_pos htest]
    rw [replaceAllF_head_ne _ _ _ _ _ hhead (by simp [imgFull])]
    rw [replaceAllF_nil, List.append_nil]

/-- C8: witness for the amended theorem at concrete strings. -/
theorem C8_witness :
    saveImagePositioning
        (imgFull (str "a") (str "s") ++ cmt (str "pos") (str "A") ++
          cmt (str "size") (str "B"))
        (str "a") (str "s") (str "left") (str "C") =
      imgFull (str "a") (str "s") ++ cmt (str "pos") (str "C") ++
        cmt (str "size") (str "B") :=
  (C8_amended_annotations (str "a") (str "s") (str "A") (str "B") (str "C")
    (str "left") (by decide) (by decide) (by decide) (by decide) (by decide)
    (by decide)).1

end HangAI
